import Mathlib

/-!
Verification development for the move-selection core of the `wadeking98/battlesnake`
repository (`src/types.rs`, `src/logic.rs`, `src/search/graph.rs`).

Shallow-embedding conventions:
* Rust `i16` values are modelled as `Int`; every arithmetic operation the source
  performs on `i16` (coordinate addition/subtraction, squaring inside
  `Coord::distance`) goes through `wrapI16`, the two's-complement wrap at 16 bits,
  matching release-mode Rust semantics.
* Rust `u8`/`u16` counters are modelled as `Nat` with an explicit `% 256` / `% 65536`
  where the source stores into those types (release-mode wrapping semantics).
* The `i16 as u8` cast in `can_move_board`'s bounds check is `toU8` (low byte).
* `f32` comparisons of Euclidean distances are modelled by comparing the (wrapped)
  integer squared distances: for the integer squares that arise here, `f32` square
  roots of distinct integers are distinct and `sqrt` is monotone, so the comparisons
  agree exactly; a negative wrapped square makes the Rust `sqrt` return NaN (where
  Rust would panic on `partial_cmp(..).unwrap()`), which the model totalises - see
  the comments at `distSqW` and `closestFoodSq`.
* `f32` ratio-versus-threshold comparisons (`percent_connected`, `inside_box`) are
  modelled over `ℚ`: the numerators/denominators that occur share a denominator of
  at most 65535, so `f32` rounding never changes the outcome of any comparison the
  code performs; division by zero follows IEEE semantics explicitly (`ratioGtThr`).
* `HashMap`/`HashSet` state is modelled by association lists / lists with the same
  observable lookup/membership behaviour; `VecDeque` by a list (pop at the head,
  append at the tail).
* The unbounded recursions of the source are given an explicit fuel parameter;
  the fuel-exhaustion branch returns `none`.  Sufficiency of the fuels used by the
  wrapper definitions is proved where a claim needs it.
-/

/-- Bit flags from `types.rs` (`bitflags!`): per-tile occupancy mask. -/
def FLAG_EMPTY : Nat := 0x01

/-- FOOD bit of the occupancy mask. -/
def FLAG_FOOD : Nat := 0x02

/-- ALLY bit of the occupancy mask (never set by `to_game_board`). -/
def FLAG_ALLY : Nat := 0x04

/-- SNAKE bit of the occupancy mask. -/
def FLAG_SNAKE : Nat := 0x08

/-- HAZARD bit of the occupancy mask. -/
def FLAG_HAZARD : Nat := 0x10

/-- BOARD_TILE_FREE_MASK from `types.rs`: EMPTY | FOOD | ALLY. -/
def FLAG_FREE_MASK : Nat := 0x07

/-- Two's-complement wrap of an integer to the `i16` range, the semantics of
release-mode Rust `i16` arithmetic. -/
def wrapI16 (v : Int) : Int := (v + 32768) % 65536 - 32768

/-- The Rust `i16 as u8` cast: the low byte of the two's-complement representation. -/
def toU8 (v : Int) : Nat := (v % 256).toNat

/-- `Coord` from `types.rs`: an `i16` pair. -/
structure Coord where
  x : Int
  y : Int
deriving DecidableEq

/-- `impl ops::Add for Coord` (componentwise `i16` addition, wrapping). -/
def coordAdd (a b : Coord) : Coord :=
  { x := wrapI16 (a.x + b.x), y := wrapI16 (a.y + b.y) }

/-- `impl ops::Sub for Coord` (componentwise `i16` subtraction, wrapping). -/
def coordSub (a b : Coord) : Coord :=
  { x := wrapI16 (a.x - b.x), y := wrapI16 (a.y - b.y) }

/-- The integer value whose `f32` square root `Coord::distance` returns:
`vec.x.pow(2) + vec.y.pow(2)` computed in wrapping `i16` arithmetic.
A negative result corresponds to the Rust `sqrt` returning NaN. -/
def distSqW (a b : Coord) : Int :=
  let vx := wrapI16 (a.x - b.x)
  let vy := wrapI16 (a.y - b.y)
  wrapI16 (wrapI16 (vx * vx) + wrapI16 (vy * vy))

/-- `a.distance(&b) <= 1.0` in the source.  For a nonnegative wrapped square `s`
the `f32` comparison `sqrt s <= 1.0` holds exactly when `s <= 1`; for a negative
`s` the distance is NaN and the comparison is false. -/
def distLeOne (a b : Coord) : Bool :=
  decide (0 ≤ distSqW a b ∧ distSqW a b ≤ 1)

/-- `Battlesnake` from `types.rs` (the fields the move-selection core reads;
`health` is `u8`, `length` is `u32`, both held as `Nat`). -/
structure Battlesnake where
  id : String
  health : Nat
  body : List Coord
  head : Coord
  length : Nat
deriving DecidableEq

/-- `Board` from `types.rs` (`height`/`width` are `u8`, held as `Nat`). -/
structure Board where
  height : Nat
  width : Nat
  food : List Coord
  snakes : List Battlesnake
  hazards : List Coord
deriving DecidableEq

/-- `Game` from `types.rs`, reduced to the only field the core reads:
the `"name"` entry of the ruleset map (a JSON string, or absent). -/
structure Game where
  rulesetName : Option String
deriving DecidableEq

/-- `game.ruleset.get("name").unwrap_or(&json!("")).to_string()`: the serde
`to_string` of a JSON string value keeps its surrounding quotes. -/
def gameModeStr (g : Game) : String :=
  "\"" ++ g.rulesetName.getD "" ++ "\""

/-- The `DIRECTIONS` map from `types.rs`.  `phf` iteration order is fixed but
unspecified; we use source order.  Every property proved below is independent of
this order. -/
def DIRECTIONS : List (String × Coord) :=
  [("up", ⟨0, 1⟩), ("right", ⟨1, 0⟩), ("left", ⟨-1, 0⟩), ("down", ⟨0, -1⟩)]

/-- The raw occupancy bits `Board::to_game_board` ORs into the hash map at a
coordinate (0 when the coordinate is absent from the map). -/
def boardFlagsRaw (b : Board) (c : Coord) : Nat :=
  (if b.food.contains c then FLAG_FOOD else 0) |||
  (if b.snakes.any fun s => s.body.contains c then FLAG_SNAKE else 0) |||
  (if b.hazards.contains c then FLAG_HAZARD else 0)

/-- `get_board_tile!(game_board, x, y)`: map lookup with `Flags::EMPTY` default.
`to_game_board` inserts an entry exactly for the occupied coordinates, ORing the
flags of overlapping entities, so the lookup is `boardFlagsRaw` when nonzero and
`EMPTY` otherwise. -/
def getBoardTile (b : Board) (c : Coord) : Nat :=
  if boardFlagsRaw b c = 0 then FLAG_EMPTY else boardFlagsRaw b c

/-- `board_tile_is_free!`: `!(tile & BOARD_TILE_FREE_MASK).is_empty()`. -/
def boardTileIsFree (flags : Nat) : Bool :=
  decide (flags &&& FLAG_FREE_MASK ≠ 0)

/-- `can_move_on_tail!` from `logic.rs`: some snake with `health < 100` whose
last body segment is the coordinate.  (Rust indexes `body[body.len() - 1]`,
panicking on an empty body; the spec's invariants exclude empty bodies.) -/
def canMoveOnTail (snakes : List Battlesnake) (coord : Coord) : Bool :=
  snakes.any fun snake =>
    snake.health < 100 && snake.body.getLast? == some coord

/-- `adj_to_bigger_snake` from `logic.rs`. -/
def adjToBiggerSnake (tile : Coord) (board : Board) (you : Battlesnake) : Bool :=
  board.snakes.any fun snake =>
    snake.id ≠ you.id && distLeOne tile snake.head && you.length ≤ snake.length

/-- The bounds test of `can_move_board`:
`tile.x as u8 >= board.width || tile.y as u8 >= board.height || tile.x < 0 || tile.y < 0`. -/
def outOfBoundsCheck (tile : Coord) (board : Board) : Bool :=
  decide (board.width ≤ toU8 tile.x) || decide (board.height ≤ toU8 tile.y) ||
  decide (tile.x < 0) || decide (tile.y < 0)

/-- `can_move_board` from `logic.rs`. -/
def canMoveBoard (tile : Coord) (board : Board) (you : Battlesnake)
    (avoidSnakeHeadsOption : Option Bool) : Bool :=
  let avoidSnakeHeads := avoidSnakeHeadsOption.getD true
  if outOfBoundsCheck tile board then false
  else
    let boardTile := getBoardTile board tile
    let snakes := board.snakes
    if boardTileIsFree boardTile ||
        (boardTile == FLAG_SNAKE && canMoveOnTail snakes tile) then
      if adjToBiggerSnake tile board you && avoidSnakeHeads then false
      else true
    else false

/-- `get_adj_tiles` from `logic.rs`: legality-filtered neighbours in
`DIRECTIONS` order. -/
def getAdjTiles (tile : Coord) (board : Board) (you : Battlesnake)
    (avoidSnakeHeadsOption : Option Bool)
    (currentPlannedMovesOption : Option (List Coord)) : List Coord :=
  let currentPlannedMoves := currentPlannedMovesOption.getD []
  (DIRECTIONS.map fun d => coordAdd d.2 tile).filter fun newPoint =>
    canMoveBoard newPoint board you avoidSnakeHeadsOption &&
    !currentPlannedMoves.contains newPoint

/-- `get_all_adj_tiles` from `logic.rs`: bounds-only neighbour filter
(plain `i16` comparisons, no `u8` cast here). -/
def getAllAdjTiles (tile : Coord) (board : Board) : List Coord :=
  (DIRECTIONS.map fun d => coordAdd d.2 tile).filter fun newPoint =>
    decide (0 ≤ newPoint.x) && decide (0 ≤ newPoint.y) &&
    decide (newPoint.x < (board.width : Int)) && decide (newPoint.y < (board.height : Int))

/-- `num_free_tiles` from `logic.rs`: `u16` board area minus the cardinality of
the set of occupied coordinates (snake bodies and hazards), with the `usize → u16`
truncation of the set size and wrapping `u16` subtraction of release-mode Rust. -/
def numFreeTiles (board : Board) : Nat :=
  let occupied := ((board.snakes.map fun s => s.body).flatten ++ board.hazards).dedup
  (board.height * board.width + 65536 - occupied.length % 65536) % 65536

/-- The `adj_tiles` list one step of `num_connected_tiles` computes: legal
neighbours of the dequeued tile that are neither visited nor excluded (a
named form of the `let adj_tiles = ...filter...collect()` of the source). -/
def ncAdj (board : Board) (you : Battlesnake) (excludeTiles : List Coord)
    (visited : List Coord) (currentTile : Coord) : List Coord :=
  (getAdjTiles currentTile board you none none).filter fun adj =>
    !visited.contains adj && !excludeTiles.contains adj

/-- `num_connected_tiles` from `logic.rs`, as a fuelled worker.  One unit of fuel
is one call of the Rust recursion (so the fuel consumed is exactly the recursion
depth); `none` means the fuel ran out before the frontier emptied.  The tile
count is accumulated as an unbounded `Nat` here; the `u8` result of the source
is this value reduced `% 256` (`numConnectedTiles`), which agrees with wrapping
the `1 + _` addition at every level. -/
def ncGo (board : Board) (you : Battlesnake) (excludeTiles : List Coord) :
    Nat → List Coord → List Coord → Option (Nat × List Coord)
  | 0, _, _ => none
  | _ + 1, [], visited => some (1, visited)
  | fuel + 1, currentTile :: rest, visited =>
    match ncGo board you excludeTiles fuel
        (rest ++ ncAdj board you excludeTiles visited currentTile)
        (visited ++ ncAdj board you excludeTiles visited currentTile) with
    | none => none
    | some (n, v) => some (1 + n, v)

/-- Fuel that always suffices for the flood fills: one unit per possible
distinct visited coordinate (every coordinate produced by wrapping `i16`
arithmetic) plus the initial frontier entry plus the final empty-frontier call. -/
def NC_FUEL : Nat := 65536 * 65536 + 2

/-- The exact (unbounded) value of the `num_connected_tiles` recursion: the
number of calls performed, i.e. one per dequeued tile plus one for the final
empty-frontier call. -/
def numConnectedTilesNat (tile : Coord) (board : Board) (you : Battlesnake)
    (excludeTiles : List Coord) : Nat :=
  match ncGo board you excludeTiles NC_FUEL [tile] [] with
  | some (n, _) => n
  | none => 0

/-- `num_connected_tiles` from `logic.rs`: the count as the `u8` the source
returns (release-mode wrapping accumulation). -/
def numConnectedTiles (tile : Coord) (board : Board) (you : Battlesnake)
    (excludeTiles : List Coord) : Nat :=
  numConnectedTilesNat tile board you excludeTiles % 256

/-- `percent_connected` from `logic.rs`.  `connected_tiles as f32 / free_tiles as f32`
is modelled exactly over `ℚ`; the source returns `0.0` before dividing when
`free_tiles == 0`. -/
def percentConnected (tile : Coord) (board : Board) (you : Battlesnake)
    (excludeTiles : List Coord) : ℚ :=
  let freeTiles := numFreeTiles board
  let connectedTiles := numConnectedTiles tile board you excludeTiles
  if freeTiles = 0 then 0 else (connectedTiles : ℚ) / (freeTiles : ℚ)

-- Concrete snapshots used by counterexamples and witnesses.

/-- An 11x11 board holding a single length-1 snake at the origin. -/
def snakeA : Battlesnake :=
  { id := "A", health := 100, body := [⟨0, 0⟩], head := ⟨0, 0⟩, length := 1 }

/-- Board for the out-of-bounds counterexample: 11x11, one snake. -/
def boardOOB : Board :=
  { height := 11, width := 11, food := [], snakes := [snakeA], hazards := [] }

/-- A snake whose tail sits inside a hazard, with health below 100. -/
def snakeHazTail : Battlesnake :=
  { id := "H", health := 50, body := [⟨0, 0⟩, ⟨1, 0⟩], head := ⟨0, 0⟩, length := 2 }

/-- Board for the hazard-tail counterexample: 3x1, the snake's tail at `(1,0)`
is also a hazard tile. -/
def boardHazTail : Board :=
  { height := 1, width := 3, food := [], snakes := [snakeHazTail], hazards := [⟨1, 0⟩] }

/-- A snake with a plain (hazard-free) tail and health below 100. -/
def snakePlainTail : Battlesnake :=
  { id := "P", health := 50, body := [⟨0, 0⟩, ⟨1, 0⟩], head := ⟨0, 0⟩, length := 2 }

/-- Board for the tail-vacation witness: 3x1, no hazards. -/
def boardPlainTail : Board :=
  { height := 1, width := 3, food := [], snakes := [snakePlainTail], hazards := [] }

/-- First snake of the head-to-head scenario (the `avoid_head_to_head` fixture). -/
def snakeHtoH1 : Battlesnake :=
  { id := "mTOl1", health := 80,
    body := [⟨4, 5⟩, ⟨3, 5⟩, ⟨2, 5⟩, ⟨1, 5⟩], head := ⟨4, 5⟩, length := 4 }

/-- Second snake of the head-to-head scenario. -/
def snakeHtoH2 : Battlesnake :=
  { id := "uZejq", health := 79,
    body := [⟨5, 4⟩, ⟨5, 3⟩, ⟨5, 2⟩, ⟨5, 1⟩], head := ⟨5, 4⟩, length := 4 }

/-- Board for the head-to-head scenario: food at `(5,5)`, two equal-length snakes. -/
def boardHtoH : Board :=
  { height := 11, width := 11, food := [⟨5, 5⟩],
    snakes := [snakeHtoH1, snakeHtoH2], hazards := [] }

/-- A length-1 snake at `(2,0)` on a 3x1 board (start-tile double-count demo). -/
def snakeConn : Battlesnake :=
  { id := "C", health := 100, body := [⟨2, 0⟩], head := ⟨2, 0⟩, length := 1 }

/-- 3x1 board with 2 free tiles, for the `percent_connected > 1` counterexample. -/
def boardConn : Board :=
  { height := 1, width := 3, food := [], snakes := [snakeConn], hazards := [] }

/-- A board with no free tiles: 1x1, fully occupied by a snake. -/
def boardFull : Board :=
  { height := 1, width := 1, food := [], snakes := [snakeA], hazards := [] }

/-- The tiles one flood-fill step can move to from `cur`, ignoring the visited
set: legal neighbours that are not excluded. -/
def goodFrom (board : Board) (you : Battlesnake) (excludeTiles : List Coord)
    (cur : Coord) : List Coord :=
  (getAdjTiles cur board you none none).filter fun a => !excludeTiles.contains a

/-- The tiles the `num_connected_tiles` flood fill eventually marks visited:
everything reachable from the start tile through `goodFrom` steps (the start
tile itself is reached only if some reached neighbour can step back onto it). -/
inductive Reaches (board : Board) (you : Battlesnake) (excludeTiles : List Coord)
    (start : Coord) : Coord → Prop
  | init (t : Coord) : t ∈ goodFrom board you excludeTiles start →
      Reaches board you excludeTiles start t
  | step (u t : Coord) : Reaches board you excludeTiles start u →
      t ∈ goodFrom board you excludeTiles u → Reaches board you excludeTiles start t

/-- Every tile the flood fills can mark visited has wrapped `i16` components
that passed the nonnegativity half of the bounds check. -/
def InPosWrap (c : Coord) : Prop :=
  0 ≤ c.x ∧ c.x ≤ 32767 ∧ 0 ≤ c.y ∧ c.y ≤ 32767

/-- The number of coordinates satisfying `InPosWrap`. -/
def NBOX : Nat := 32768 * 32768

/-- A coordinate representable as a wrapped `i16` pair - every coordinate the
searches ever construct (`coordAdd`/`coordSub` wrap). -/
def InWrap (c : Coord) : Prop :=
  -32768 ≤ c.x ∧ c.x ≤ 32767 ∧ -32768 ≤ c.y ∧ c.y ≤ 32767

/-- The number of coordinates satisfying `InWrap`. -/
def NWRAP : Nat := 65536 * 65536

/-- A tile strictly inside the board rectangle. -/
def OnBoard (b : Board) (c : Coord) : Prop :=
  0 ≤ c.x ∧ c.x < (b.width : Int) ∧ 0 ≤ c.y ∧ c.y < (b.height : Int)

/-- A length-2 snake filling a 2x1 board, health 100 (just ate): its tail tile
is occupied-and-not-vacating, so it has no legal move at all. -/
def snakeKey : Battlesnake :=
  { id := "K", health := 100, body := [⟨0, 0⟩, ⟨1, 0⟩], head := ⟨0, 0⟩, length := 2 }

/-- 2x1 board for the `find_key_hole` counterexample. -/
def boardKey : Board :=
  { height := 1, width := 2, food := [], snakes := [snakeKey], hazards := [] }

/-- The same snake with health 99: its tail tile is now legal to enter. -/
def snakeKey99 : Battlesnake :=
  { id := "K", health := 99, body := [⟨0, 0⟩, ⟨1, 0⟩], head := ⟨0, 0⟩, length := 2 }

/-- 2x1 board for the `find_key_hole` witness. -/
def boardKey99 : Board :=
  { height := 1, width := 2, food := [], snakes := [snakeKey99], hazards := [] }

/-- A game whose ruleset has no `"name"` entry. -/
def gameStd : Game := { rulesetName := none }

/-- A length-1 snake alone on a 1x1 board: no legal move exists at any tier. -/
def snakeTrap : Battlesnake :=
  { id := "T", health := 100, body := [⟨0, 0⟩], head := ⟨0, 0⟩, length := 1 }

/-- The 1x1 board for the last-resort default-direction scenario. -/
def boardTrap : Board :=
  { height := 1, width := 1, food := [], snakes := [snakeTrap], hazards := [] }

/-- A length-1 snake at `(254, 0)` for the 255x1 overflow board. -/
def snakeBig : Battlesnake :=
  { id := "B", health := 100, body := [⟨254, 0⟩], head := ⟨254, 0⟩, length := 1 }

/-- A 255x1 board with 254 free tiles: flood-filling it from `(0,0)` makes the
`u8` tile counter reach 256 and wrap to 0. -/
def boardBig : Board :=
  { height := 1, width := 255, food := [], snakes := [snakeBig], hazards := [] }

/-- The `Ordering` a Rust `f32` `partial_cmp(..).unwrap()` produces, over the
exact rational values our model carries. -/
def cmpQ (a b : ℚ) : Ordering :=
  if a < b then .lt else if b < a then .gt else .eq

/-- `usize::cmp` / `u8::cmp`. -/
def cmpNat (a b : Nat) : Ordering :=
  if a < b then .lt else if b < a then .gt else .eq

/-- Comparison of two distances through their (wrapped) integer squares:
`sqrt` is monotone and, for the integer squares reachable here, `f32` square
roots of distinct integers are distinct, so this equals the `f32`
`partial_cmp(..).unwrap()` whenever the Rust value is not NaN (a negative
wrapped square; there Rust panics and the model totalises). -/
def cmpInt (a b : Int) : Ordering :=
  if a < b then .lt else if b < a then .gt else .eq

/-- Rust's stable `sort_by` with a comparator: `mergeSort` with
`le a b := cmp a b != .gt` (both stable, so they agree including ties). -/
def sortByCm (cmp : α → α → Ordering) (l : List α) : List α :=
  l.mergeSort fun a b => cmp a b != Ordering.gt

/-- `closest_food` from `graph.rs`, carried as the squared distance whose
`f32` square root the source returns: `None` when there is no food, otherwise
the minimum over all food (the head of the ascending sort). -/
def closestFoodSq (tile : Coord) (board : Board) : Option Int :=
  match board.food.map fun item => distSqW tile item with
  | [] => none
  | d :: ds => some (ds.foldl min d)

/-- `distance_to_center` from `logic.rs`, as the squared distance. -/
def distCenterSq (tile : Coord) (board : Board) : Int :=
  distSqW tile ⟨(board.width : Int) / 2, (board.height : Int) / 2⟩

/-- `compare_moves` from `logic.rs`.  The `closest_food(..).unwrap()` values are
`Some` because the branch is guarded by `board.food.len() > 0`; `getD 0` stands
for the `unwrap`. -/
def compareMoves (a b : Coord) (board : Board) (you : Battlesnake)
    (currentPlannedMoves : List Coord) (avoidSnakeHeadsOption : Option Bool)
    (degreeOrderOption evasiveActionOption : Option Bool) : Ordering :=
  let evasiveAction := evasiveActionOption.getD false
  let degreeOrder := degreeOrderOption.getD true
  if evasiveAction && decide (0 < board.food.length) then
    cmpInt ((closestFoodSq a board).getD 0) ((closestFoodSq b board).getD 0)
  else
    let adjA := (getAdjTiles a board you avoidSnakeHeadsOption
        (some currentPlannedMoves)).filter fun item => !currentPlannedMoves.contains item
    let adjB := (getAdjTiles b board you avoidSnakeHeadsOption
        (some currentPlannedMoves)).filter fun item => !currentPlannedMoves.contains item
    let connOrder := cmpNat adjA.length adjB.length
    if connOrder == Ordering.eq || !degreeOrder then
      cmpInt (distCenterSq b board) (distCenterSq a board)
    else connOrder

/-- `coords_diverge` from `logic.rs`. -/
def coordsDiverge (tile : Coord) (unitCoord1 unitCoord2 : Coord) (board : Board) : Bool :=
  let unitVec := coordAdd unitCoord1 unitCoord2
  let vec := coordAdd unitVec tile
  let unitVecVal := getBoardTile board vec
  unitVec == (⟨0, 0⟩ : Coord) || !boardTileIsFree unitVecVal

/-- `favourable_divergent_coords` from `logic.rs` (the `.len() as u8` cast of
the degree test cannot truncate: an adjacency list has at most 4 entries). -/
def favourableDivergentCoords (t1 t2 : Coord) (board : Board) (you : Battlesnake)
    (excludeTiles : List Coord) (degreeThreshold : Nat) (threshold : ℚ)
    (avoidSnakeHeadsOption applyDegree evasiveActionOption : Option Bool) :
    List (Coord × ℚ) :=
  let connectedUnitMoves := [t1, t2].map fun tile =>
    (tile, percentConnected tile board you excludeTiles)
  let connectedUnitMovesFiltered := connectedUnitMoves.filter fun tc =>
    decide (threshold ≤ tc.2) &&
    decide (degreeThreshold ≤ (getAdjTiles tc.1 board you none (some excludeTiles)).length)
  sortByCm (fun x y =>
    let order := cmpQ x.2 y.2
    if order == Ordering.eq then
      compareMoves x.1 y.1 board you excludeTiles avoidSnakeHeadsOption
        applyDegree evasiveActionOption
    else order) connectedUnitMovesFiltered

/-- `get_adj_tiles_connected` from `logic.rs`.  The source indexes
`moves[0]/moves[1]` and `unit_moves[..]` after checking the length; the model
pattern-matches on the sorted move list instead, which is the same case split. -/
def getAdjTilesConnected (tile : Coord) (board : Board) (you : Battlesnake)
    (threshold : ℚ) (degreeThreshold : Nat)
    (applyDegree evasiveActionOption avoidSnakeHeadsOption : Option Bool)
    (currentPlannedMovesOption : Option (List Coord)) : List Coord :=
  let currentPlannedMoves := currentPlannedMovesOption.getD []
  let moves0 := (getAdjTiles tile board you avoidSnakeHeadsOption
      (some currentPlannedMoves)).filter fun item => !currentPlannedMoves.contains item
  let moves := sortByCm (fun a b => compareMoves a b board you currentPlannedMoves
      avoidSnakeHeadsOption applyDegree evasiveActionOption) moves0
  match moves with
  | [m1, m2] =>
    if coordsDiverge tile (coordSub m1 tile) (coordSub m2 tile) board then
      (favourableDivergentCoords m1 m2 board you currentPlannedMoves degreeThreshold
        threshold avoidSnakeHeadsOption applyDegree evasiveActionOption).map
        fun mv => mv.1
    else moves
  | [m1, m2, m3] =>
    let u1 := coordSub m1 tile
    let u2 := coordSub m2 tile
    let u3 := coordSub m3 tile
    let forwardUnitVec := coordAdd (coordAdd u1 u2) u3
    match [u1, u2, u3].filter fun mv => mv != forwardUnitVec with
    | [s1, s2] =>
      if !(coordsDiverge tile forwardUnitVec s1 board ||
          coordsDiverge tile forwardUnitVec s2 board) then moves
      else
        let forwardVec := coordAdd forwardUnitVec tile
        let favourableMoves1 := favourableDivergentCoords forwardVec (coordAdd s1 tile)
          board you currentPlannedMoves degreeThreshold threshold
          avoidSnakeHeadsOption applyDegree evasiveActionOption
        let favourableMoves2 := (favourableDivergentCoords forwardVec (coordAdd s2 tile)
          board you currentPlannedMoves degreeThreshold threshold
          avoidSnakeHeadsOption applyDegree evasiveActionOption).filter
          fun item => !favourableMoves1.contains item
        let favourableMoves := favourableMoves1 ++ favourableMoves2
        (sortByCm (fun x y =>
          let order := cmpQ x.2 y.2
          if order == Ordering.eq then
            compareMoves x.1 y.1 board you currentPlannedMoves avoidSnakeHeadsOption
              applyDegree evasiveActionOption
          else order) favourableMoves).map fun mv => mv.1
    | _ => []
  | _ => moves

/-- The `f32` comparison `(n as f32 / d as f32) > threshold` of `inside_box_logic`,
with IEEE division-by-zero semantics made explicit: `n/0` is `+inf` (greater)
for `n > 0` and NaN (not greater) for `n = 0`. -/
def ratioGtThr (n d : Nat) (thr : ℚ) : Bool :=
  if d = 0 then decide (0 < n) else decide (thr < (n : ℚ) / (d : ℚ))

/-- `inside_box_logic` from `graph.rs` (fuelled; `none` = fuel ran out). -/
def insideBoxGo (you : Battlesnake) (board : Board) (numFree : Nat)
    (boxThreshold : ℚ) : Nat → List Coord → List Coord → Option Bool
  | 0, _, _ => none
  | _ + 1, [], _ => some true
  | fuel + 1, currentTile :: rest, visited =>
    let adjTiles := (getAdjTiles currentTile board you none none).filter
        fun item => !visited.contains item
    let visited1 := visited ++ adjTiles
    if ratioGtThr visited1.length numFree boxThreshold then some false
    else insideBoxGo you board numFree boxThreshold fuel (rest ++ adjTiles) visited1

/-- `inside_box` from `graph.rs` (the `getD` default is unreachable for the
fuel used by `getMove`, by the flood-fill termination bound). -/
def insideBoxF (fuel : Nat) (you : Battlesnake) (board : Board)
    (boxThreshold : ℚ) : Bool :=
  (insideBoxGo you board (numFreeTiles board) boxThreshold fuel [you.head] []).getD true

/-- `HashMap` lookup over the association-list model. -/
def mapLookup (m : List (Coord × α)) (k : Coord) : Option α :=
  (m.find? fun kv => kv.1 == k).map fun kv => kv.2

/-- `HashMap::insert` over the association-list model (replace or add). -/
def mapInsert (m : List (Coord × α)) (k : Coord) (v : α) : List (Coord × α) :=
  if m.any fun kv => kv.1 == k then
    m.map fun kv => if kv.1 == k then (k, v) else kv
  else (k, v) :: m

/-- The parent-following loop of `backtrack` from `graph.rs`.  The fuel
`|trace_tree| + 1` covers every acyclic parent map (each step visits a distinct
key); on a cyclic map the Rust loop would not terminate and the model truncates. -/
def backtrackGo : Nat → Coord → List (Coord × Coord) → List Coord → List Coord
  | 0, _, _, path => path
  | fuel + 1, currentTile, traceTree, path =>
    match mapLookup traceTree currentTile with
    | some parent => backtrackGo fuel parent traceTree (path ++ [parent])
    | none => path

/-- `backtrack` from `graph.rs`: follow parents from the goal, drop the root,
reverse. -/
def backtrackF (tile : Coord) (traceTree : List (Coord × Coord)) : List Coord :=
  let path := backtrackGo (traceTree.length + 1) tile traceTree [tile]
  path.dropLast.reverse

/-- `find_blocking_tiles` from `graph.rs` (fuelled). -/
def fbGo (board : Board) : Nat → List Coord → List Coord → List Coord →
    Option (List Coord)
  | 0, _, _, _ => none
  | _ + 1, [], _, blockingTiles => some blockingTiles
  | fuel + 1, currentTile :: rest, visited, blockingTiles =>
    if getBoardTile board currentTile &&& FLAG_SNAKE ≠ 0 then
      fbGo board fuel rest visited (blockingTiles ++ [currentTile])
    else
      let adjTiles := (getAllAdjTiles currentTile board).filter
          fun item => !visited.contains item
      fbGo board fuel (rest ++ adjTiles) (visited ++ adjTiles) blockingTiles

/-- `get_snake_from_tile` from `logic.rs`: the first snake whose body holds the
tile. -/
def getSnakeFromTile (tile : Coord) (snakes : List Battlesnake) :
    Option Battlesnake :=
  snakes.find? fun snake => snake.body.contains tile

/-- The sort key `find_key_hole` computes for a blocking tile:
`body.len() - position-of-first-occurrence` (`unwrap_or(0)` for the position),
or 0 when no snake holds the tile. -/
def keyHoleRank (board : Board) (a : Coord) : Nat :=
  match getSnakeFromTile a board.snakes with
  | some snake =>
    snake.body.length - ((snake.body.findIdx? fun item => item == a).getD 0)
  | none => 0

/-- `find_key_hole` from `graph.rs`: flood-fill from the head's
`get_adj_tiles`-approved neighbours (head-avoidance at its default), sort the
blocking tiles by `keyHoleRank` ascending (stable), return the first. -/
def findKeyHoleF (fuel : Nat) (board : Board) (you : Battlesnake) : Option Coord :=
  let blockingTiles := (fbGo board fuel
    (getAdjTiles you.head board you none none) [] []).getD []
  match sortByCm (fun a b => cmpNat (keyHoleRank board a) (keyHoleRank board b))
      blockingTiles with
  | [] => none
  | t :: _ => some t

/-- Follows the spec's words for claim C6 (not the code): the same search but
seeded from the head's unfiltered, bounds-only neighbours
(`get_all_adj_tiles`), i.e. ignoring legality and head-avoidance. -/
def findKeyHoleUnfiltered (fuel : Nat) (board : Board) (you : Battlesnake) :
    Option Coord :=
  let blockingTiles := (fbGo board fuel (getAllAdjTiles you.head board) [] []).getD []
  match sortByCm (fun a b => cmpNat (keyHoleRank board a) (keyHoleRank board b))
      blockingTiles with
  | [] => none
  | t :: _ => some t

/-- Decides `c1 + sqrt h1 <= c2 + sqrt h2` exactly, for `h1, h2 >= 0`
(integer arithmetic; both sides of each squaring step are nonnegative). -/
def addSqrtLe (c1 : Nat) (h1 : Int) (c2 : Nat) (h2 : Int) : Bool :=
  let d : Int := (c2 : Int) - (c1 : Int)
  if 0 ≤ d then
    let L := h1 - d * d - h2
    decide (L ≤ 0) || decide (L * L ≤ 4 * (d * d) * h2)
  else
    let M := h2 - h1 - d * d
    decide (0 ≤ M) && decide (4 * (d * d) * h1 ≤ M * M)

/-- Pop order of the `a_star` priority queue.  A stored pair `(c, h)` stands for
the pushed `OrderedFloat(-(c + sqrt h))`; the queue pops the greatest, i.e. the
least `c + sqrt h`, and a NaN (negative `h`, from a wrapped food distance) is
the greatest `OrderedFloat` so it pops first. -/
def prioPopsBefore (p q : Nat × Int) : Bool :=
  if p.2 < 0 then true
  else if q.2 < 0 then false
  else addSqrtLe p.1 p.2 q.1 q.2

/-- Pop of the `priority_queue` model: first-stored among the best-priority
entries (the crate's tie order is unspecified; the claims proved below do not
depend on it). -/
def pqPopMin : List (Coord × Nat × Int) → Option (Coord × List (Coord × Nat × Int))
  | [] => none
  | e :: rest =>
    let best := rest.foldl (fun acc x => if prioPopsBefore acc.2 x.2 then acc else x) e
    some (best.1, (e :: rest).erase best)

/-- `PriorityQueue::push`: replaces the stored priority when the item is
already present. -/
def pqPush (q : List (Coord × Nat × Int)) (c : Coord) (p : Nat × Int) :
    List (Coord × Nat × Int) :=
  if q.any fun e => e.1 == c then q.map fun e => if e.1 == c then (c, p) else e
  else (c, p) :: q

/-- The three mutable structures `a_star_logic` threads: the priority queue,
the parent map and the cost map. -/
structure AState where
  frontier : List (Coord × Nat × Int)
  visited : List (Coord × Coord)
  cost : List (Coord × Nat)
deriving DecidableEq

/-- The neighbour-relaxation loop of `a_star_logic`: hazard steps cost 16,
others 1, `u16` wrapping addition; push on first visit or strict improvement. -/
def aStarRelax (board : Board) (currentTile : Coord) (currentCost : Nat) :
    List Coord → AState → AState
  | [], st => st
  | tile :: ts, st =>
    let movementCost : Nat :=
      if getBoardTile board tile &&& FLAG_HAZARD ≠ 0 then 16 else 1
    let previousCostOpt := mapLookup st.cost tile
    let newCost := (currentCost + movementCost) % 65536
    let doPush :=
      match previousCostOpt with
      | none => true
      | some p => decide (newCost < p)
    if doPush then
      aStarRelax board currentTile currentCost ts
        { frontier := pqPush st.frontier tile (newCost, (closestFoodSq tile board).getD 0)
          visited := mapInsert st.visited tile currentTile
          cost := mapInsert st.cost tile newCost }
    else aStarRelax board currentTile currentCost ts st

/-- `a_star_logic` from `graph.rs` (fuelled).  The source's 8-argument call of
`get_adj_tiles_connected` matches an earlier signature of that function; it is
modelled as the 10-parameter one with `apply_degree`, `evasive_action` and
`avoid_snake_heads` unset and the future body positions as the planned moves.
`some (g, _)` in the result means the food guard accepted `g`. -/
def aStarGo (board : Board) (you : Battlesnake) (connectionThreshold : ℚ)
    (degreeThreshold : Nat) : Nat → AState → Option (Option Coord × AState)
  | 0, _ => none
  | fuel + 1, st =>
    match pqPopMin st.frontier with
    | none => some (none, st)
    | some (currentTile, rest) =>
      let st1 : AState := ⟨rest, st.visited, st.cost⟩
      if getBoardTile board currentTile &&& FLAG_FOOD ≠ 0 ∧
          (mapLookup st1.cost currentTile).getD 0 < you.health then
        some (some currentTile, st1)
      else
        let currentPath := backtrackF currentTile st1.visited
        let pathIndex := currentPath.length - you.length
        let futureSnakePositions := currentPath.drop pathIndex
        let adjTiles := getAdjTilesConnected currentTile board you
          connectionThreshold degreeThreshold none none none
          (some futureSnakePositions)
        let currentCost := (mapLookup st1.cost currentTile).getD 0
        aStarGo board you connectionThreshold degreeThreshold fuel
          (aStarRelax board currentTile currentCost adjTiles st1)

/-- Fuel that always suffices for `a_star_logic`: each call either empties the
frontier or pops one entry, and every push strictly decreases a `u16` cost
entry of one of the at most `65536 * 65536` representable tiles. -/
def ASTAR_FUEL : Nat := 65536 * (65536 * 65536) + 2

/-- The initial `a_star` state: the head at priority `0.0`. -/
def aStarInit (you : Battlesnake) : AState :=
  ⟨[(you.head, (0, 0))], [], []⟩

/-- `a_star` from `graph.rs` at a given fuel. -/
def aStarF (fuel : Nat) (board : Board) (you : Battlesnake)
    (connectionThreshold : ℚ) (degreeThreshold : Nat) : List Coord :=
  match aStarGo board you connectionThreshold degreeThreshold fuel (aStarInit you) with
  | some (some goal, st) => backtrackF goal st.visited
  | _ => []

/-- `a_star` from `graph.rs`. -/
def aStar (board : Board) (you : Battlesnake) (connectionThreshold : ℚ)
    (degreeThreshold : Nat) : List Coord :=
  aStarF ASTAR_FUEL board you connectionThreshold degreeThreshold

/-- One iteration of the neighbour loop of `depth_first_search_logic`: once a
result is found (or fuel ran out) the remaining neighbours are skipped,
otherwise the search recurses into the neighbour with it marked visited. -/
def dfsStep
    (rec : Coord → List (Coord × Coord) → Option (Option Coord × List (Coord × Coord)))
    (fromTile : Coord) (acc : Option (Option Coord × List (Coord × Coord)))
    (tile : Coord) : Option (Option Coord × List (Coord × Coord)) :=
  match acc with
  | none => none
  | some (some g, vis) => some (some g, vis)
  | some (none, vis) => rec tile (mapInsert vis tile fromTile)

/-- `depth_first_search_logic` from `graph.rs` (fuelled by recursion depth:
children run at one unit less; the loop over sorted neighbours is a fold of
`dfsStep`).  `some (some g, _)` is a found path, `some (none, _)` a failed
search, `none` exhausted fuel. -/
def dfsGo (goal : Coord) (board : Board) (you : Battlesnake)
    (connectionThreshold : ℚ) (degreeThreshold : Nat) :
    Nat → Coord → List (Coord × Coord) → Option (Option Coord × List (Coord × Coord))
  | 0, _, _ => none
  | fuel + 1, fromTile, visited =>
    if distLeOne fromTile goal then some (some goal, mapInsert visited goal fromTile)
    else
      let currentPath := backtrackF fromTile visited
      let pathIndex := currentPath.length - you.length
      let futureSnakePositions := currentPath.drop pathIndex
      let adjTiles0 := (getAdjTilesConnected fromTile board you 0 0 none none none
          (some futureSnakePositions)).filter fun item => (mapLookup visited item).isNone
      let adjTiles := sortByCm
        (fun a b => cmpInt (distSqW goal b) (distSqW goal a)) adjTiles0
      adjTiles.foldl
        (dfsStep (dfsGo goal board you connectionThreshold degreeThreshold fuel) fromTile)
        (some (none, visited))

/-- `dfs_long` from `graph.rs` at a given fuel. -/
def dfsLong (fuel : Nat) (goal : Coord) (board : Board) (you : Battlesnake)
    (connectionThreshold : ℚ) (degreeThreshold : Nat) : List Coord :=
  match dfsGo goal board you connectionThreshold degreeThreshold fuel you.head [] with
  | some (some tile, visited) => backtrackF tile visited
  | _ => []

/-- Postcondition of one `depth_first_search_logic` call: fuel cannot run out,
and a failed search hands back a visited map with distinct, representable keys
extending the keys it was given. -/
def DfsPost (visited : List (Coord × Coord)) :
    Option (Option Coord × List (Coord × Coord)) → Prop
  | none => False
  | some (some _, _) => True
  | some (none, vis') => (vis'.map Prod.fst).Nodup ∧
      (∀ k ∈ vis'.map Prod.fst, InWrap k) ∧
      ∀ k ∈ visited.map Prod.fst, k ∈ vis'.map Prod.fst

/-- The `a_star_logic` termination invariant: the cost map has distinct,
representable keys and `u16` values. -/
def AInv (st : AState) : Prop :=
  (st.cost.map Prod.fst).Nodup ∧ (∀ k ∈ st.cost.map Prod.fst, InWrap k) ∧
    ∀ v ∈ st.cost.map Prod.snd, v ≤ 65535

/-- The `a_star_logic` termination measure: pending queue entries, plus the
total stored cost, plus `65536` per coordinate not yet in the cost map. -/
def aMeasure (st : AState) : Nat :=
  st.frontier.length + (st.cost.map Prod.snd).sum +
    65536 * (NWRAP - (st.cost.map Prod.fst).length)

/-- `dirs_to_moves` from `logic.rs`: map unit vectors back to `DIRECTIONS` keys. -/
def dirsToMoves (dirs : List Coord) : List String :=
  dirs.filterMap fun dir =>
    (DIRECTIONS.find? fun kv => kv.2 == dir).map fun kv => kv.1

/-- `get_rand_moves` from `logic.rs` at a given fuel (the fuel feeds the
flood fills inside `get_adj_tiles_connected` via `percentConnected`, which is
already total). -/
def getRandMoves (fromPoint : Coord) (board : Board) (you : Battlesnake)
    (threshold : ℚ) (degreeThreshold : Nat) (applyDegreeOption : Option Bool) :
    List String :=
  let safeMoves := getAdjTilesConnected fromPoint board you threshold
    degreeThreshold applyDegreeOption none none none
  let safeMoves2 :=
    if safeMoves.length ≤ 0 then
      getAdjTilesConnected fromPoint board you 0 0 applyDegreeOption
        (some true) (some false) none
    else safeMoves
  dirsToMoves (safeMoves2.map fun item => coordSub item you.head)

/-- `get_move` from `logic.rs` at a given search fuel, returning the chosen
move string (the `json!({"move": chosen})` wrapper carries exactly this value). -/
def getMoveF (fuel : Nat) (game : Game) (turn : Nat) (board : Board)
    (you : Battlesnake) : String :=
  let gameMode := gameModeStr game
  let safe1 : List String :=
    if gameMode != "\"constrictor\"" && insideBoxF fuel you board (3 / 10) then
      match findKeyHoleF fuel board you with
      | some escapeTile =>
        match (dfsLong fuel escapeTile board you 0 0).head? with
        | some nextMove =>
          if canMoveBoard nextMove board you (some false) then
            dirsToMoves [coordSub nextMove you.head]
          else []
        | none => []
      | none => []
    else []
  let safeMoves :=
    if safe1.length ≤ 0 then
      match (aStarF fuel board you (1 / 2) 2).head? with
      | some p0 =>
        match DIRECTIONS.find? fun kv => kv.2 == coordSub p0 you.head with
        | some kv => safe1 ++ [kv.1]
        | none => safe1
      | none => safe1 ++ getRandMoves you.head board you (1 / 2) 2 (some false)
    else safe1
  (safeMoves.getLast?).getD "up"

/-- `get_move` from `logic.rs` (the `turn` argument is only logged). -/
def getMove (game : Game) (turn : Nat) (board : Board) (you : Battlesnake) :
    String :=
  getMoveF ASTAR_FUEL game turn board you

-- THEOREMS

/-- Claim C2 counterexample: the coordinate `(256, 0)` lies outside the 11x11
board (`x ≥ width`, within the `i16` range), yet `can_move_board` accepts it:
the `i16 as u8` truncation of the bounds check maps 256 to 0. -/
theorem c2_counterexample :
    (boardOOB.width : Int) ≤ 256 ∧
    canMoveBoard ⟨256, 0⟩ boardOOB snakeA none = true := by
  decide

/-- Claim C2 (amended): `can_move_board` rejects every tile with a negative
coordinate, and every tile in `[0,256) x [0,256)` outside
`[0,width) x [0,height)`; the truncating `u8` bounds check only misses
out-of-board coordinates at 256 or above whose low byte is in range. -/
theorem c2_amended_bounds (tile : Coord) (board : Board) (you : Battlesnake)
    (avoidOpt : Option Bool)
    (h : tile.x < 0 ∨ tile.y < 0 ∨
        (0 ≤ tile.x ∧ tile.x < 256 ∧ (board.width : Int) ≤ tile.x) ∨
        (0 ≤ tile.y ∧ tile.y < 256 ∧ (board.height : Int) ≤ tile.y)) :
    canMoveBoard tile board you avoidOpt = false := by
  have hc : outOfBoundsCheck tile board = true := by
    simp only [outOfBoundsCheck, toU8, Bool.or_eq_true, decide_eq_true_eq]
    omega
  simp [canMoveBoard, hc]

/-- Claim C2 witness: the wall tile `(11, 0)` of the 11x11 board is rejected. -/
theorem c2_amended_bounds_witness :
    canMoveBoard ⟨11, 0⟩ boardOOB snakeA none = false :=
  c2_amended_bounds ⟨11, 0⟩ boardOOB snakeA none (by decide)

/-- Claim C3 counterexample: a snake tail inside a hazard tile, owner health
50 < 100, no bigger-snake adjacency - the claim says the tile is enterable, but
`can_move_board` rejects it (the tail exception requires the tile's flags to be
exactly SNAKE, and here they are SNAKE|HAZARD). -/
theorem c3_counterexample :
    snakeHazTail.body.getLast? = some ⟨1, 0⟩ ∧ snakeHazTail.health < 100 ∧
    adjToBiggerSnake ⟨1, 0⟩ boardHazTail snakeHazTail = false ∧
    canMoveBoard ⟨1, 0⟩ boardHazTail snakeHazTail none = false := by
  decide

/-- Claim C3 (amended): for an in-bounds tile whose occupancy flags are exactly
SNAKE (a body-occupied tile with no food or hazard on it), and with the
head-proximity veto aside, `can_move_board` returns true exactly when some snake
with health < 100 has its tail at the tile; in particular a tile occupied only
by non-tail segments is never enterable, and a pure tail tile is enterable iff
its owner's health is below 100. -/
theorem c3_amended_snake_tile (tile : Coord) (board : Board) (you : Battlesnake)
    (avoidOpt : Option Bool)
    (hin : outOfBoundsCheck tile board = false)
    (hflags : getBoardTile board tile = FLAG_SNAKE)
    (hhead : ¬(adjToBiggerSnake tile board you = true ∧ avoidOpt.getD true = true)) :
    canMoveBoard tile board you avoidOpt =
      board.snakes.any fun s => s.health < 100 && s.body.getLast? == some tile := by
  have hfree : boardTileIsFree FLAG_SNAKE = false := by decide
  have hveto : (adjToBiggerSnake tile board you && avoidOpt.getD true) = false := by
    cases hA : adjToBiggerSnake tile board you
    · simp
    · cases hB : avoidOpt.getD true
      · simp
      · exact absurd ⟨hA, hB⟩ hhead
  simp only [canMoveBoard, hin, Bool.false_eq_true, if_false, hflags, hfree,
    Bool.false_or, beq_self_eq_true, Bool.true_and, hveto, canMoveOnTail]
  rcases Bool.eq_false_or_eq_true
      (board.snakes.any fun s => s.health < 100 && s.body.getLast? == some tile) with h | h
  · simp [h]
  · simp [h]

/-- Claim C3 witness: a plain tail tile with owner health 50 < 100 is enterable,
matching the tail-vacation rule. -/
theorem c3_amended_snake_tile_witness :
    canMoveBoard ⟨1, 0⟩ boardPlainTail snakePlainTail none =
      boardPlainTail.snakes.any
        (fun s => s.health < 100 && s.body.getLast? == some ⟨1, 0⟩) ∧
    canMoveBoard ⟨1, 0⟩ boardPlainTail snakePlainTail none = true :=
  ⟨c3_amended_snake_tile ⟨1, 0⟩ boardPlainTail snakePlainTail none
    (by decide) (by decide) (by decide), by decide⟩

/-- Claim C4: an in-bounds tile that the occupancy/tail rule would allow, but
which is within Euclidean distance 1.0 of the head of another snake of length
at least the deciding snake's (`adj_to_bigger_snake`), is rejected when
head-avoidance is enabled (`Some(true)`) or defaulted (`None`), and gets the
occupancy/tail-rule result when head-avoidance is disabled (`Some(false)`). -/
theorem c4_head_proximity (tile : Coord) (board : Board) (you : Battlesnake)
    (hin : outOfBoundsCheck tile board = false)
    (hfree : (boardTileIsFree (getBoardTile board tile) ||
        (getBoardTile board tile == FLAG_SNAKE && canMoveOnTail board.snakes tile)) = true)
    (hadj : adjToBiggerSnake tile board you = true) :
    canMoveBoard tile board you (some true) = false ∧
    canMoveBoard tile board you none = false ∧
    canMoveBoard tile board you (some false) = true := by
  refine ⟨?_, ?_, ?_⟩ <;>
    simp [canMoveBoard, hin, hfree, hadj]

/-- Claim C4 witness: the head-to-head fixture - the contested food tile `(5,5)`
is adjacent to the equal-length opponent's head, so it is rejected with
head-avoidance on or defaulted and accepted with it off. -/
theorem c4_head_proximity_witness :
    canMoveBoard ⟨5, 5⟩ boardHtoH snakeHtoH2 (some true) = false ∧
    canMoveBoard ⟨5, 5⟩ boardHtoH snakeHtoH2 none = false ∧
    canMoveBoard ⟨5, 5⟩ boardHtoH snakeHtoH2 (some false) = true :=
  c4_head_proximity ⟨5, 5⟩ boardHtoH snakeHtoH2 (by decide) (by decide) (by decide)

/-- Claim C7 counterexample: on a 3x1 board with 2 free tiles,
`percent_connected` of the corner tile is 2, outside the interval `[0,1]`:
the flood-fill counter dequeues the start tile twice and adds a final one,
so it exceeds the number of reachable tiles. -/
theorem c7_counterexample :
    numFreeTiles boardConn = 2 ∧
    percentConnected ⟨0, 0⟩ boardConn snakeConn [] = 2 ∧
    (1 : ℚ) < percentConnected ⟨0, 0⟩ boardConn snakeConn [] := by
  have hc : numConnectedTiles ⟨0, 0⟩ boardConn snakeConn [] = 4 := by decide
  have hf : numFreeTiles boardConn = 2 := by decide
  have hv : percentConnected ⟨0, 0⟩ boardConn snakeConn [] = 2 := by
    simp [percentConnected, hc, hf]
    norm_num
  exact ⟨hf, hv, by rw [hv]; norm_num⟩

/-- Claim C7 (amended): `percent_connected` returns a nonnegative value - the
8-bit flood-fill counter (one per dequeued tile plus one, with the start tile
possibly dequeued twice, so the value can exceed 1 and is not in general the
reachable-tile fraction) divided by the free-tile count - and returns exactly 0
when the board has no free tiles. -/
theorem c7_amended_ratio (tile : Coord) (board : Board) (you : Battlesnake)
    (ex : List Coord) :
    0 ≤ percentConnected tile board you ex ∧
    (numFreeTiles board = 0 → percentConnected tile board you ex = 0) := by
  constructor
  · by_cases h : numFreeTiles board = 0
    · simp [percentConnected, h]
    · simp only [percentConnected, h, if_false]
      positivity
  · intro h
    simp [percentConnected, h]

/-- Claim C7 witness: a fully occupied 1x1 board has no free tiles and
`percent_connected` returns 0 there. -/
theorem c7_amended_ratio_witness :
    percentConnected ⟨0, 0⟩ boardFull snakeA [] = 0 :=
  (c7_amended_ratio ⟨0, 0⟩ boardFull snakeA []).2 (by decide)

theorem wrapI16_range (v : Int) : -32768 ≤ wrapI16 v ∧ wrapI16 v ≤ 32767 := by
  unfold wrapI16
  omega

theorem coord_eq_iff {a b : Coord} : a = b ↔ a.x = b.x ∧ a.y = b.y := by
  cases a; cases b; simp

theorem adjCands_nodup (tile : Coord) :
    ((DIRECTIONS.map fun d => coordAdd d.2 tile)).Nodup := by
  simp only [DIRECTIONS, List.map_cons, List.map_nil]
  refine List.nodup_cons.mpr ⟨?_, List.nodup_cons.mpr ⟨?_,
    List.nodup_cons.mpr ⟨?_, List.nodup_singleton _⟩⟩⟩ <;>
  · simp only [List.mem_cons, List.not_mem_nil, or_false, coord_eq_iff, coordAdd, wrapI16]
    intro h
    omega

theorem mem_ncAdj {board : Board} {you : Battlesnake} {ex visited : List Coord}
    {cur t : Coord} :
    t ∈ ncAdj board you ex visited cur ↔
      t ∈ goodFrom board you ex cur ∧ t ∉ visited := by
  simp [ncAdj, goodFrom, List.mem_filter]
  tauto

theorem ncAdj_nodup (board : Board) (you : Battlesnake) (ex visited : List Coord)
    (cur : Coord) : (ncAdj board you ex visited cur).Nodup :=
  List.Nodup.filter _ (List.Nodup.filter _ (adjCands_nodup cur))

theorem ncAdj_disjoint (board : Board) (you : Battlesnake) (ex visited : List Coord)
    (cur : Coord) : ∀ t ∈ ncAdj board you ex visited cur, t ∉ visited :=
  fun _ ht => (mem_ncAdj.mp ht).2

theorem mem_getAdjTiles_canMove {board : Board} {you : Battlesnake}
    {a : Option Bool} {p : Option (List Coord)} {tile t : Coord}
    (h : t ∈ getAdjTiles tile board you a p) : canMoveBoard t board you a = true := by
  simp only [getAdjTiles, List.mem_filter, Bool.and_eq_true] at h
  exact h.2.1

theorem mem_getAdjTiles_wrapped {board : Board} {you : Battlesnake}
    {a : Option Bool} {p : Option (List Coord)} {tile t : Coord}
    (h : t ∈ getAdjTiles tile board you a p) :
    t.x ≤ 32767 ∧ t.y ≤ 32767 ∧ -32768 ≤ t.x ∧ -32768 ≤ t.y := by
  simp only [getAdjTiles, List.mem_filter, List.mem_map] at h
  obtain ⟨⟨d, _, hd⟩, _⟩ := h
  subst hd
  simp only [coordAdd]
  have h1 := wrapI16_range (d.2.x + tile.x)
  have h2 := wrapI16_range (d.2.y + tile.y)
  exact ⟨h1.2, h2.2, h1.1, h2.1⟩

theorem canMoveBoard_nonneg {board : Board} {you : Battlesnake} {a : Option Bool}
    {t : Coord} (h : canMoveBoard t board you a = true) : 0 ≤ t.x ∧ 0 ≤ t.y := by
  have hc : outOfBoundsCheck t board = false := by
    cases hc : outOfBoundsCheck t board
    · rfl
    · simp [canMoveBoard, hc] at h
  simp only [outOfBoundsCheck, Bool.or_eq_false_iff, decide_eq_false_iff_not] at hc
  omega

theorem mem_getAdjTiles_posWrap {board : Board} {you : Battlesnake}
    {a : Option Bool} {p : Option (List Coord)} {tile t : Coord}
    (h : t ∈ getAdjTiles tile board you a p) : InPosWrap t := by
  have h1 := mem_getAdjTiles_wrapped h
  have h2 := canMoveBoard_nonneg (mem_getAdjTiles_canMove h)
  exact ⟨h2.1, h1.1, h2.2, h1.2.1⟩

theorem nodup_length_le_of_encode {P : Coord → Prop} {N : Nat} (enc : Coord → Nat)
    (hlt : ∀ c, P c → enc c < N)
    (hinj : ∀ c d, P c → P d → enc c = enc d → c = d) :
    ∀ (v : List Coord), v.Nodup → (∀ x ∈ v, P x) → v.length ≤ N := by
  intro v hnd hP
  have hmapnd : (v.map enc).Nodup := by
    refine List.Nodup.map_on ?_ hnd
    intro c hc d hd hcd
    exact hinj c d (hP c hc) (hP d hd) hcd
  have hsub : (v.map enc).toFinset ⊆ Finset.range N := by
    intro n hn
    simp only [List.mem_toFinset, List.mem_map] at hn
    obtain ⟨c, hc, rfl⟩ := hn
    exact Finset.mem_range.mpr (hlt c (hP c hc))
  calc v.length = (v.map enc).length := (List.length_map _ _).symm
    _ = (v.map enc).toFinset.card := (List.toFinset_card_of_nodup hmapnd).symm
    _ ≤ (Finset.range N).card := Finset.card_le_card hsub
    _ = N := Finset.card_range N

theorem posWrap_length_le (v : List Coord) (hnd : v.Nodup)
    (hP : ∀ x ∈ v, InPosWrap x) : v.length ≤ NBOX := by
  refine nodup_length_le_of_encode (fun c => c.x.toNat * 32768 + c.y.toNat) ?_ ?_ v hnd hP
  · intro c hc
    obtain ⟨h1, h2, h3, h4⟩ := hc
    simp only [NBOX]
    omega
  · intro c d hc hd hcd
    obtain ⟨h1, h2, h3, h4⟩ := hc
    obtain ⟨g1, g2, g3, g4⟩ := hd
    have hcd2 : c.x.toNat * 32768 + c.y.toNat = d.x.toNat * 32768 + d.y.toNat := hcd
    rw [coord_eq_iff]
    omega

theorem onBoard_length_le (b : Board) (v : List Coord) (hnd : v.Nodup)
    (hP : ∀ x ∈ v, OnBoard b x) : v.length ≤ b.width * b.height := by
  refine nodup_length_le_of_encode (fun c => c.x.toNat * b.height + c.y.toNat) ?_ ?_ v hnd hP
  · intro c hc
    obtain ⟨h1, h2, h3, h4⟩ := hc
    have hx : c.x.toNat < b.width := by omega
    have hy : c.y.toNat < b.height := by omega
    calc c.x.toNat * b.height + c.y.toNat < c.x.toNat * b.height + b.height := by omega
      _ = (c.x.toNat + 1) * b.height := by ring
      _ ≤ b.width * b.height := Nat.mul_le_mul_right _ (by omega)
  · intro c d hc hd hcd
    obtain ⟨h1, h2, h3, h4⟩ := hc
    obtain ⟨g1, g2, g3, g4⟩ := hd
    have hcd2 : c.x.toNat * b.height + c.y.toNat = d.x.toNat * b.height + d.y.toNat := hcd
    rw [coord_eq_iff]
    have hy1 : c.y.toNat < b.height := by omega
    have hy2 : d.y.toNat < b.height := by omega
    have e1 : (c.x.toNat * b.height + c.y.toNat) % b.height = c.y.toNat := by
      rw [Nat.add_comm, Nat.add_mul_mod_self_right]
      exact Nat.mod_eq_of_lt hy1
    have e2 : (d.x.toNat * b.height + d.y.toNat) % b.height = d.y.toNat := by
      rw [Nat.add_comm, Nat.add_mul_mod_self_right]
      exact Nat.mod_eq_of_lt hy2
    have hyeq : c.y.toNat = d.y.toNat := by rw [← e1, ← e2, hcd2]
    have hxeq : c.x.toNat * b.height = d.x.toNat * b.height := by omega
    have hpos : 0 < b.height := by omega
    have hx : c.x.toNat = d.x.toNat := Nat.eq_of_mul_eq_mul_right hpos hxeq
    omega

theorem ncGo_spec {board : Board} {you : Battlesnake} {ex : List Coord} :
    ∀ fuel (f v : List Coord) n v', ncGo board you ex fuel f v = some (n, v') →
      n + v.length = 1 + f.length + v'.length ∧ (∀ x ∈ v, x ∈ v') ∧
      (v.Nodup → v'.Nodup) := by
  intro fuel
  induction fuel with
  | zero => intro f v n v' h; simp [ncGo] at h
  | succ m ih =>
    intro f v n v' h
    match f with
    | [] =>
      simp only [ncGo, Option.some.injEq, Prod.mk.injEq] at h
      obtain ⟨rfl, rfl⟩ := h
      exact ⟨by simp, fun x hx => hx, fun hv => hv⟩
    | cur :: rest =>
      simp only [ncGo] at h
      cases hrec : ncGo board you ex m (rest ++ ncAdj board you ex v cur)
          (v ++ ncAdj board you ex v cur) with
      | none => rw [hrec] at h; exact absurd h (by simp)
      | some p =>
        obtain ⟨n0, v0⟩ := p
        rw [hrec] at h
        simp only [Option.some.injEq, Prod.mk.injEq] at h
        obtain ⟨rfl, rfl⟩ := h
        obtain ⟨ih1, ih2, ih3⟩ := ih _ _ _ _ hrec
        refine ⟨?_, ?_, ?_⟩
        · simp only [List.length_append, List.length_cons] at ih1 ⊢
          omega
        · intro x hx
          exact ih2 x (List.mem_append_left _ hx)
        · intro hv
          refine ih3 (List.Nodup.append hv (ncAdj_nodup board you ex v cur) ?_)
          rw [List.disjoint_left]
          intro a ha hadj
          exact ncAdj_disjoint board you ex v cur a hadj ha

theorem ncGo_sound {board : Board} {you : Battlesnake} {ex : List Coord}
    (start : Coord) :
    ∀ fuel (f v : List Coord) n v', ncGo board you ex fuel f v = some (n, v') →
      (∀ x ∈ v, Reaches board you ex start x) →
      (∀ x ∈ f, x = start ∨ Reaches board you ex start x) →
      ∀ x ∈ v', Reaches board you ex start x := by
  intro fuel
  induction fuel with
  | zero => intro f v n v' h; simp [ncGo] at h
  | succ m ih =>
    intro f v n v' h hv hf
    match f with
    | [] =>
      simp only [ncGo, Option.some.injEq, Prod.mk.injEq] at h
      obtain ⟨rfl, rfl⟩ := h
      exact hv
    | cur :: rest =>
      simp only [ncGo] at h
      cases hrec : ncGo board you ex m (rest ++ ncAdj board you ex v cur)
          (v ++ ncAdj board you ex v cur) with
      | none => rw [hrec] at h; exact absurd h (by simp)
      | some p =>
        obtain ⟨n0, v0⟩ := p
        rw [hrec] at h
        simp only [Option.some.injEq, Prod.mk.injEq] at h
        obtain ⟨rfl, rfl⟩ := h
        have hadjR : ∀ t ∈ ncAdj board you ex v cur, Reaches board you ex start t := by
          intro t ht
          have hg := (mem_ncAdj.mp ht).1
          rcases hf cur (List.mem_cons_self _ _) with rfl | hR
          · exact Reaches.init t hg
          · exact Reaches.step cur t hR hg
        refine ih _ _ _ _ hrec ?_ ?_
        · intro x hx
          rcases List.mem_append.mp hx with hx | hx
          · exact hv x hx
          · exact hadjR x hx
        · intro x hx
          rcases List.mem_append.mp hx with hx | hx
          · exact hf x (List.mem_cons_of_mem _ hx)
          · exact Or.inr (hadjR x hx)

theorem ncGo_expand {board : Board} {you : Battlesnake} {ex : List Coord} :
    ∀ fuel (f v : List Coord) n v', ncGo board you ex fuel f v = some (n, v') →
      ∀ x, (x ∈ f ∨ (x ∈ v' ∧ x ∉ v)) →
      ∀ t ∈ goodFrom board you ex x, t ∈ v' := by
  intro fuel
  induction fuel with
  | zero => intro f v n v' h; simp [ncGo] at h
  | succ m ih =>
    intro f v n v' h x hx t ht
    match f with
    | [] =>
      simp only [ncGo, Option.some.injEq, Prod.mk.injEq] at h
      obtain ⟨rfl, rfl⟩ := h
      rcases hx with hx | ⟨hx1, hx2⟩
      · exact absurd hx (List.not_mem_nil x)
      · exact absurd hx1 hx2
    | cur :: rest =>
      simp only [ncGo] at h
      cases hrec : ncGo board you ex m (rest ++ ncAdj board you ex v cur)
          (v ++ ncAdj board you ex v cur) with
      | none => rw [hrec] at h; exact absurd h (by simp)
      | some p =>
        obtain ⟨n0, v0⟩ := p
        rw [hrec] at h
        simp only [Option.some.injEq, Prod.mk.injEq] at h
        obtain ⟨rfl, rfl⟩ := h
        have hmono := (ncGo_spec _ _ _ _ _ hrec).2.1
        rcases hx with hx | ⟨hx1, hx2⟩
        · rcases List.mem_cons.mp hx with rfl | hx
          · by_cases hv : t ∈ v
            · exact hmono t (List.mem_append_left _ hv)
            · exact hmono t (List.mem_append_right _ (mem_ncAdj.mpr ⟨ht, hv⟩))
          · exact ih _ _ _ _ hrec x (Or.inl (List.mem_append_left _ hx)) t ht
        · by_cases hadj : x ∈ ncAdj board you ex v cur
          · exact ih _ _ _ _ hrec x (Or.inl (List.mem_append_right _ hadj)) t ht
          · refine ih _ _ _ _ hrec x (Or.inr ⟨hx1, ?_⟩) t ht
            intro hmem
            rcases List.mem_append.mp hmem with hm | hm
            · exact hx2 hm
            · exact hadj hm

theorem ncGo_complete {board : Board} {you : Battlesnake} {ex : List Coord}
    {fuel : Nat} {start : Coord} {n : Nat} {v' : List Coord}
    (h : ncGo board you ex fuel [start] [] = some (n, v')) :
    ∀ t, Reaches board you ex start t → t ∈ v' := by
  intro t ht
  induction ht with
  | init t hg =>
    exact ncGo_expand _ _ _ _ _ h start (Or.inl (List.mem_singleton_self _)) t hg
  | step u t hu hg ihu =>
    exact ncGo_expand _ _ _ _ _ h u (Or.inr ⟨ihu, List.not_mem_nil u⟩) t hg

theorem goodFrom_anti {board : Board} {you : Battlesnake} {E1 E2 : List Coord}
    (hsub : ∀ c ∈ E1, c ∈ E2) {cur t : Coord}
    (h : t ∈ goodFrom board you E2 cur) : t ∈ goodFrom board you E1 cur := by
  simp only [goodFrom, List.mem_filter, Bool.not_eq_true'] at h ⊢
  refine ⟨h.1, ?_⟩
  have h2 : t ∉ E2 := by simpa using h.2
  have h1 : t ∉ E1 := fun hmem => h2 (hsub t hmem)
  simpa using h1

theorem reaches_mono {board : Board} {you : Battlesnake} {E1 E2 : List Coord}
    (hsub : ∀ c ∈ E1, c ∈ E2) {start t : Coord}
    (h : Reaches board you E2 start t) : Reaches board you E1 start t := by
  induction h with
  | init t hg => exact Reaches.init t (goodFrom_anti hsub hg)
  | step u t _ hg ih => exact Reaches.step u t ih (goodFrom_anti hsub hg)

theorem ncGo_isSome_aux {board : Board} {you : Battlesnake} {ex : List Coord}
    (P : Coord → Prop) (N : Nat) (t0 : Coord)
    (hstep : ∀ (v : List Coord) (cur t : Coord), (cur = t0 ∨ P cur) →
      t ∈ ncAdj board you ex v cur → P t)
    (hcard : ∀ (w : List Coord), w.Nodup → (∀ x ∈ w, P x) → w.length ≤ N) :
    ∀ fuel (f v : List Coord), v.Nodup → (∀ x ∈ v, P x) →
      (∀ x ∈ f, x = t0 ∨ P x) →
      f.length + (N - v.length) + 1 ≤ fuel →
      (ncGo board you ex fuel f v).isSome := by
  intro fuel
  induction fuel with
  | zero => intro f v _ _ _ hfuel; omega
  | succ m ih =>
    intro f v hnd hvS hfS hfuel
    match f with
    | [] => simp [ncGo]
    | cur :: rest =>
      have hadjS : ∀ t ∈ ncAdj board you ex v cur, P t :=
        fun t ht => hstep v cur t (hfS cur (List.mem_cons_self _ _)) ht
      have hdisj : (v ++ ncAdj board you ex v cur).Nodup := by
        refine List.Nodup.append hnd (ncAdj_nodup board you ex v cur) ?_
        rw [List.disjoint_left]
        intro a ha hadj
        exact ncAdj_disjoint board you ex v cur a hadj ha
      have hvS' : ∀ x ∈ v ++ ncAdj board you ex v cur, P x := by
        intro x hx
        rcases List.mem_append.mp hx with hx | hx
        · exact hvS x hx
        · exact hadjS x hx
      have hlen : (v ++ ncAdj board you ex v cur).length ≤ N :=
        hcard _ hdisj hvS'
      have hrec := ih (rest ++ ncAdj board you ex v cur)
        (v ++ ncAdj board you ex v cur) hdisj hvS'
        (by
          intro x hx
          rcases List.mem_append.mp hx with hx | hx
          · exact hfS x (List.mem_cons_of_mem _ hx)
          · exact Or.inr (hadjS x hx))
        (by
          simp only [List.length_append, List.length_cons] at hfuel hlen ⊢
          omega)
      simp only [ncGo]
      obtain ⟨p, hp⟩ := Option.isSome_iff_exists.mp hrec
      rw [hp]
      obtain ⟨n0, v0⟩ := p
      simp

theorem ncAdj_posWrap {board : Board} {you : Battlesnake} {ex : List Coord}
    {v : List Coord} {cur t : Coord} (ht : t ∈ ncAdj board you ex v cur) :
    InPosWrap t := by
  have hg := (mem_ncAdj.mp ht).1
  simp only [goodFrom, List.mem_filter] at hg
  exact mem_getAdjTiles_posWrap hg.1

theorem ncGo_total (board : Board) (you : Battlesnake) (ex : List Coord)
    (tile : Coord) : (ncGo board you ex NC_FUEL [tile] []).isSome := by
  refine ncGo_isSome_aux InPosWrap NBOX tile
    (fun v cur t _ ht => ncAdj_posWrap ht) posWrap_length_le NC_FUEL [tile] []
    List.nodup_nil ?_ ?_ ?_
  · intro x hx
    exact absurd hx (List.not_mem_nil x)
  · intro x hx
    rw [List.mem_singleton] at hx
    exact Or.inl hx
  · simp only [List.length_singleton, List.length_nil, Nat.sub_zero, NC_FUEL, NBOX]
    omega

theorem canMoveBoard_boundsCheck {board : Board} {you : Battlesnake}
    {a : Option Bool} {t : Coord} (h : canMoveBoard t board you a = true) :
    outOfBoundsCheck t board = false := by
  cases hc : outOfBoundsCheck t board
  · rfl
  · simp [canMoveBoard, hc] at h

theorem numConnectedTilesNat_eq {board : Board} {you : Battlesnake}
    {ex : List Coord} {tile : Coord} {n : Nat} {v' : List Coord}
    (h : ncGo board you ex NC_FUEL [tile] [] = some (n, v')) :
    numConnectedTilesNat tile board you ex = n := by
  simp [numConnectedTilesNat, h]

theorem natCount_formula {board : Board} {you : Battlesnake}
    {ex : List Coord} {tile : Coord} {n : Nat} {v' : List Coord}
    (h : ncGo board you ex NC_FUEL [tile] [] = some (n, v')) :
    n = 2 + v'.length := by
  have h1 := (ncGo_spec _ _ _ _ _ h).1
  simp only [List.length_singleton, List.length_nil] at h1
  omega

theorem c8_amended_monotone (tile : Coord) (board : Board) (you : Battlesnake)
    (E1 E2 : List Coord) (hsub : ∀ c ∈ E1, c ∈ E2)
    (hsmall : numConnectedTilesNat tile board you E1 ≤ 255) :
    percentConnected tile board you E2 ≤ percentConnected tile board you E1 := by
  obtain ⟨p1, h1⟩ := Option.isSome_iff_exists.mp (ncGo_total board you E1 tile)
  obtain ⟨n1, v1⟩ := p1
  obtain ⟨p2, h2⟩ := Option.isSome_iff_exists.mp (ncGo_total board you E2 tile)
  obtain ⟨n2, v2⟩ := p2
  have hsub12 : ∀ x ∈ v2, x ∈ v1 := by
    intro x hx
    have hr2 : Reaches board you E2 tile x := by
      refine ncGo_sound tile _ _ _ _ _ h2 ?_ ?_ x hx
      · intro y hy
        exact absurd hy (List.not_mem_nil y)
      · intro y hy
        rw [List.mem_singleton] at hy
        exact Or.inl hy
    exact ncGo_complete h1 x (reaches_mono hsub hr2)
  have hnd2 : v2.Nodup := (ncGo_spec _ _ _ _ _ h2).2.2 List.nodup_nil
  have hlen : v2.length ≤ v1.length := by
    calc v2.length = v2.toFinset.card := (List.toFinset_card_of_nodup hnd2).symm
      _ ≤ v1.toFinset.card := Finset.card_le_card
          (fun x hx => List.mem_toFinset.mpr (hsub12 x (List.mem_toFinset.mp hx)))
      _ ≤ v1.length := List.toFinset_card_le v1
  have hn1 : numConnectedTilesNat tile board you E1 = n1 := numConnectedTilesNat_eq h1
  have hn2 : numConnectedTilesNat tile board you E2 = n2 := numConnectedTilesNat_eq h2
  have hf1 : n1 = 2 + v1.length := natCount_formula h1
  have hf2 : n2 = 2 + v2.length := natCount_formula h2
  have hu1 : numConnectedTiles tile board you E1 = n1 := by
    rw [numConnectedTiles, hn1]
    exact Nat.mod_eq_of_lt (by omega)
  have hu2 : numConnectedTiles tile board you E2 = n2 := by
    rw [numConnectedTiles, hn2]
    exact Nat.mod_eq_of_lt (by omega)
  unfold percentConnected
  by_cases hfree : numFreeTiles board = 0
  · simp [hfree]
  · simp only [hfree, if_false, hu1, hu2]
    have hpos : (0 : ℚ) < (numFreeTiles board : ℚ) := by
      exact_mod_cast Nat.pos_of_ne_zero hfree
    exact (div_le_div_iff_of_pos_right hpos).mpr (by exact_mod_cast (by omega : n2 ≤ n1))


theorem c8_amended_monotone_witness :
    percentConnected ⟨0, 0⟩ boardConn snakeConn [⟨1, 0⟩] ≤
      percentConnected ⟨0, 0⟩ boardConn snakeConn [] :=
  c8_amended_monotone ⟨0, 0⟩ boardConn snakeConn [] [⟨1, 0⟩]
    (fun c hc => absurd hc (List.not_mem_nil c)) (by decide)

set_option maxRecDepth 10000 in
set_option maxHeartbeats 8000000 in
theorem bigCountE1 : numConnectedTilesNat ⟨0, 0⟩ boardBig snakeBig [] = 256 := by
  decide

set_option maxRecDepth 10000 in
set_option maxHeartbeats 8000000 in
theorem bigCountE2 :
    numConnectedTilesNat ⟨0, 0⟩ boardBig snakeBig [⟨253, 0⟩] = 255 := by
  decide

theorem bigFree : numFreeTiles boardBig = 254 := by decide

theorem c8_counterexample :
    (∀ c ∈ ([] : List Coord), c ∈ [Coord.mk 253 0]) ∧
    percentConnected ⟨0, 0⟩ boardBig snakeBig [] <
      percentConnected ⟨0, 0⟩ boardBig snakeBig [⟨253, 0⟩] := by
  refine ⟨fun c hc => absurd hc (List.not_mem_nil c), ?_⟩
  have hu1 : numConnectedTiles ⟨0, 0⟩ boardBig snakeBig [] = 0 := by
    rw [numConnectedTiles, bigCountE1]
  have hu2 : numConnectedTiles ⟨0, 0⟩ boardBig snakeBig [⟨253, 0⟩] = 255 := by
    rw [numConnectedTiles, bigCountE2]
  have h1 : percentConnected ⟨0, 0⟩ boardBig snakeBig [] = 0 := by
    simp [percentConnected, hu1, bigFree]
  have h2 : percentConnected ⟨0, 0⟩ boardBig snakeBig [⟨253, 0⟩] = 255 / 254 := by
    simp [percentConnected, hu2, bigFree]
  rw [h1, h2]
  norm_num

theorem c10_u8_counter :
    (∀ (tile : Coord) (board : Board) (you : Battlesnake) (ex : List Coord),
      numConnectedTiles tile board you ex = numConnectedTilesNat tile board you ex % 256 ∧
      (numConnectedTiles tile board you ex = numConnectedTilesNat tile board you ex ↔
        numConnectedTilesNat tile board you ex ≤ 255)) ∧
    numConnectedTilesNat ⟨0, 0⟩ boardBig snakeBig [] = 256 ∧
    numConnectedTiles ⟨0, 0⟩ boardBig snakeBig [] = 0 ∧
    percentConnected ⟨0, 0⟩ boardBig snakeBig [] = 0 ∧
    0 < numFreeTiles boardBig ∧
    (1 : ℚ) <
      (numConnectedTilesNat ⟨0, 0⟩ boardBig snakeBig [] : ℚ) / (numFreeTiles boardBig : ℚ) := by
  refine ⟨?_, bigCountE1, ?_, ?_, ?_, ?_⟩
  · intro tile board you ex
    refine ⟨rfl, ?_⟩
    unfold numConnectedTiles
    constructor
    · intro h
      by_contra hlt
      have := Nat.mod_lt (numConnectedTilesNat tile board you ex) (by omega : 0 < 256)
      omega
    · intro h
      exact Nat.mod_eq_of_lt (by omega)
  · rw [numConnectedTiles, bigCountE1]
  · have hu1 : numConnectedTiles ⟨0, 0⟩ boardBig snakeBig [] = 0 := by
      rw [numConnectedTiles, bigCountE1]
    simp [percentConnected, hu1, bigFree]
  · rw [bigFree]; omega
  · rw [bigCountE1, bigFree]
    norm_num

theorem adjStep_onBoard {board : Board} {you : Battlesnake} {ex : List Coord}
    (hw : board.width ≤ 255) (hh : board.height ≤ 255)
    {v : List Coord} {cur t : Coord} (hcur : OnBoard board cur)
    (ht : t ∈ ncAdj board you ex v cur) : OnBoard board t := by
  have hg := (mem_ncAdj.mp ht).1
  simp only [goodFrom, List.mem_filter] at hg
  have hadj := hg.1
  simp only [getAdjTiles, List.mem_filter, List.mem_map, Bool.and_eq_true] at hadj
  obtain ⟨⟨d, hd, rfl⟩, hcm, _⟩ := hadj
  have hdval : (d.2.x = 0 ∧ (d.2.y = 1 ∨ d.2.y = -1)) ∨
      (d.2.y = 0 ∧ (d.2.x = 1 ∨ d.2.x = -1)) := by
    simp only [DIRECTIONS, List.mem_cons, List.not_mem_nil, or_false] at hd
    rcases hd with rfl | rfl | rfl | rfl
    · exact Or.inl ⟨rfl, Or.inl rfl⟩
    · exact Or.inr ⟨rfl, Or.inl rfl⟩
    · exact Or.inr ⟨rfl, Or.inr rfl⟩
    · exact Or.inl ⟨rfl, Or.inr rfl⟩
  have hbounds := canMoveBoard_boundsCheck hcm
  simp only [outOfBoundsCheck, Bool.or_eq_false_iff, decide_eq_false_iff_not] at hbounds
  obtain ⟨hcx, hcxw, hcy, hcyh⟩ := hcur
  simp only [coordAdd, wrapI16, toU8] at hbounds ⊢
  unfold OnBoard
  simp only [coordAdd, wrapI16]
  omega

theorem ncGo_total_onBoard (board : Board) (you : Battlesnake) (ex : List Coord)
    (tile : Coord) (hw : board.width ≤ 255) (hh : board.height ≤ 255)
    (ht : OnBoard board tile) :
    (ncGo board you ex (board.width * board.height + 2) [tile] []).isSome := by
  refine ncGo_isSome_aux (OnBoard board) (board.width * board.height) tile
    ?_ (onBoard_length_le board) _ [tile] [] List.nodup_nil ?_ ?_ ?_
  · intro v cur t hc htm
    rcases hc with rfl | hc
    · exact adjStep_onBoard hw hh ht htm
    · exact adjStep_onBoard hw hh hc htm
  · intro x hx
    exact absurd hx (List.not_mem_nil x)
  · intro x hx
    rw [List.mem_singleton] at hx
    exact Or.inl hx
  · simp only [List.length_singleton, List.length_nil, Nat.sub_zero]
    omega

theorem aStarGo_success (board : Board) (you : Battlesnake) (ct : ℚ) (dt : Nat) :
    ∀ (fuel : Nat) (st : AState) (g : Coord) (st' : AState),
      aStarGo board you ct dt fuel st = some (some g, st') →
      getBoardTile board g &&& FLAG_FOOD ≠ 0 ∧
        (mapLookup st'.cost g).getD 0 < you.health := by
  intro fuel
  induction fuel with
  | zero => intro st g st' h; simp [aStarGo] at h
  | succ m ih =>
    intro st g st' h
    simp only [aStarGo] at h
    split at h
    · simp at h
    · split at h
      · rename_i hguard
        simp only [Option.some.injEq, Prod.mk.injEq, Option.some.injEq] at h
        obtain ⟨rfl, rfl⟩ := h
        exact hguard
      · exact ih _ _ _ h

/-- Claim C5: the nearest-food search accepts a goal only under the health
gate: whenever `a_star_logic` succeeds with goal `g`, the tile `g` carries the
FOOD flag and the accumulated path cost recorded for `g` (hazard steps cost 16,
other steps 1) is strictly below the searching snake's health; in every other
outcome (no goal passes the gate before the frontier empties) `a_star` returns
the empty path. -/
theorem c5_a_star_health_gate (fuel : Nat) (board : Board) (you : Battlesnake)
    (ct : ℚ) (dt : Nat) :
    (match aStarGo board you ct dt fuel (aStarInit you) with
      | some (some g, st) =>
        getBoardTile board g &&& FLAG_FOOD ≠ 0 ∧
          (mapLookup st.cost g).getD 0 < you.health
      | _ => aStarF fuel board you ct dt = []) := by
  cases h : aStarGo board you ct dt fuel (aStarInit you) with
  | none => simp [aStarF, h]
  | some p =>
    obtain ⟨og, st'⟩ := p
    cases og with
    | none => simp [aStarF, h]
    | some g =>
      simpa using aStarGo_success board you ct dt fuel (aStarInit you) g st' h

theorem cmpNat_le_iff (a b : Nat) : (cmpNat a b != Ordering.gt) = true ↔ a ≤ b := by
  unfold cmpNat
  split
  · rename_i h
    constructor
    · intro _
      omega
    · intro _
      decide
  · split
    · rename_i h1 h2
      constructor
      · intro hc
        exact absurd hc (by decide)
      · intro hle
        exact absurd hle (by omega)
    · rename_i h1 h2
      constructor
      · intro _
        omega
      · intro _
        decide

unseal List.merge List.mergeSort in
/-- Claim C6 counterexample: on the 2x1 board the snake's only in-bounds head
neighbour is its own just-fed tail, which `get_adj_tiles` filters out, so
`find_key_hole` starts from an empty frontier and returns `None` - while the
spec's described fill from the *unfiltered* neighbours reaches that snake-body
tile and would return it as the key hole. -/
theorem c6_counterexample :
    findKeyHoleF 10 boardKey snakeKey = none ∧
    findKeyHoleUnfiltered 10 boardKey snakeKey = some ⟨1, 0⟩ := by
  decide

/-- Claim C6 (amended): `find_key_hole` flood-fills outward starting from the
head's legality-filtered neighbours (`get_adj_tiles`, head-avoidance at its
default, i.e. enabled) - not the unfiltered neighbours - then crosses in-bounds
non-snake tiles and stops at snake-body tiles; it returns `None` exactly when
the fill collects no blocking tile, and otherwise a blocking tile of minimal
`body.len - position` key, i.e. one whose body segment is closest to its owning
snake's tail. -/
theorem c6_amended_key_hole (fuel : Nat) (board : Board) (you : Battlesnake) :
    (findKeyHoleF fuel board you = none ↔
      (fbGo board fuel (getAdjTiles you.head board you none none) [] []).getD [] = []) ∧
    ∀ t, findKeyHoleF fuel board you = some t →
      t ∈ (fbGo board fuel (getAdjTiles you.head board you none none) [] []).getD [] ∧
      ∀ u ∈ (fbGo board fuel (getAdjTiles you.head board you none none) [] []).getD [],
        keyHoleRank board t ≤ keyHoleRank board u := by
  set bt := (fbGo board fuel (getAdjTiles you.head board you none none) [] []).getD []
    with hbt
  set le := fun a b =>
    cmpNat (keyHoleRank board a) (keyHoleRank board b) != Ordering.gt with hle
  have hperm : (bt.mergeSort le).Perm bt := List.mergeSort_perm bt le
  have hsorted : List.Pairwise (fun a b => le a b = true) (bt.mergeSort le) := by
    refine List.sorted_mergeSort ?_ ?_ bt
    · intro a b c hab hbc
      rw [hle] at hab hbc ⊢
      rw [cmpNat_le_iff] at hab hbc ⊢
      omega
    · intro a b
      rw [hle, Bool.or_eq_true]
      rcases Nat.le_total (keyHoleRank board a) (keyHoleRank board b) with h | h
      · exact Or.inl ((cmpNat_le_iff _ _).mpr h)
      · exact Or.inr ((cmpNat_le_iff _ _).mpr h)
  have hform : findKeyHoleF fuel board you =
      (match bt.mergeSort le with | [] => none | t :: _ => some t) := rfl
  cases hm : bt.mergeSort le with
  | nil =>
    have hbtnil : bt = [] := by
      have hp := hperm
      rw [hm] at hp
      exact (List.Perm.nil_eq hp).symm
    rw [hm] at hform
    have hform2 : findKeyHoleF fuel board you = none := hform
    refine ⟨by simp [hform2, hbtnil], ?_⟩
    intro t ht
    rw [hform2] at ht
    exact absurd ht (by simp)
  | cons t rest =>
    rw [hm] at hform
    have hform2 : findKeyHoleF fuel board you = some t := hform
    have htmem : t ∈ bt := hperm.subset (hm ▸ List.mem_cons_self t rest)
    refine ⟨?_, ?_⟩
    · rw [hform2]
      constructor
      · intro hc
        exact absurd hc (by simp)
      · intro hc
        exfalso
        have hlen := hperm.length_eq
        rw [hm, hc] at hlen
        simp at hlen
    · intro t' ht'
      rw [hform2, Option.some.injEq] at ht'
      subst ht'
      refine ⟨htmem, ?_⟩
      intro u hu
      have humem : u ∈ t :: rest := by
        rw [← hm]
        exact (hperm.symm).subset hu
      rcases List.mem_cons.mp humem with rfl | hurest
      · exact Nat.le_refl _
      · have hpair := (List.pairwise_cons.mp (hm ▸ hsorted)).1 u hurest
        rw [hle] at hpair
        exact (cmpNat_le_iff _ _).mp hpair

unseal List.merge List.mergeSort in
/-- Claim C6 witness: with health 99 the tail tile is a legal start, the fill
hits the snake-body tile `(1,0)`, and `find_key_hole` returns it as the
minimal-key blocking tile. -/
theorem c6_amended_key_hole_witness :
    ((⟨1, 0⟩ : Coord) ∈
      (fbGo boardKey99 10 (getAdjTiles snakeKey99.head boardKey99 snakeKey99 none none)
        [] []).getD [] ∧
    ∀ u ∈ (fbGo boardKey99 10 (getAdjTiles snakeKey99.head boardKey99 snakeKey99 none none)
        [] []).getD [],
      keyHoleRank boardKey99 ⟨1, 0⟩ ≤ keyHoleRank boardKey99 u) :=
  (c6_amended_key_hole 10 boardKey99 snakeKey99).2 ⟨1, 0⟩ (by decide)

theorem dirsToMoves_subset (ds : List Coord) :
    ∀ s ∈ dirsToMoves ds, s ∈ ["up", "right", "left", "down"] := by
  intro s hs
  simp only [dirsToMoves, List.mem_filterMap] at hs
  obtain ⟨dir, _, hfind⟩ := hs
  rw [Option.map_eq_some'] at hfind
  obtain ⟨kv, hkv, rfl⟩ := hfind
  have hmem := List.mem_of_find?_eq_some hkv
  simp only [DIRECTIONS, List.mem_cons, List.not_mem_nil, or_false] at hmem
  rcases hmem with rfl | rfl | rfl | rfl <;> simp

theorem getRandMoves_subset (p : Coord) (b : Board) (y : Battlesnake) (t : ℚ)
    (d : Nat) (a : Option Bool) :
    ∀ s ∈ getRandMoves p b y t d a, s ∈ ["up", "right", "left", "down"] := by
  intro s hs
  simp only [getRandMoves] at hs
  exact dirsToMoves_subset _ s hs

theorem getLast_getD_mem (l : List String)
    (h : ∀ s ∈ l, s ∈ ["up", "right", "left", "down"]) :
    (l.getLast?).getD "up" ∈ ["up", "right", "left", "down"] := by
  cases hl : l.getLast? with
  | none => simp
  | some s =>
    simp only [Option.getD_some]
    exact h s (List.mem_of_mem_getLast? hl)

theorem findDir_fst_mem {c : Coord} {kv : String × Coord}
    (heq : DIRECTIONS.find? (fun kv => kv.2 == c) = some kv) :
    kv.1 ∈ ["up", "right", "left", "down"] := by
  have hmem := List.mem_of_find?_eq_some heq
  simp only [DIRECTIONS, List.mem_cons, List.not_mem_nil, or_false] at hmem
  rcases hmem with rfl | rfl | rfl | rfl <;> simp

theorem escapeMoves_subset (fuel : Nat) (board : Board) (you : Battlesnake) :
    ∀ s ∈ (match findKeyHoleF fuel board you with
      | some escapeTile =>
        match (dfsLong fuel escapeTile board you 0 0).head? with
        | some nextMove =>
          if canMoveBoard nextMove board you (some false) then
            dirsToMoves [coordSub nextMove you.head]
          else []
        | none => []
      | none => []), s ∈ ["up", "right", "left", "down"] := by
  intro s hs
  split at hs
  · split at hs
    · split at hs
      · exact dirsToMoves_subset _ s hs
      · exact absurd hs (List.not_mem_nil s)
    · exact absurd hs (List.not_mem_nil s)
  · exact absurd hs (List.not_mem_nil s)

theorem getMoveF_mem_dirs (fuel : Nat) (game : Game) (turn : Nat) (board : Board)
    (you : Battlesnake) :
    getMoveF fuel game turn board you ∈ ["up", "right", "left", "down"] := by
  simp only [getMoveF]
  apply getLast_getD_mem
  intro s hs
  repeat split at hs
  all_goals
    first
    | exact absurd hs (List.not_mem_nil s)
    | exact dirsToMoves_subset _ s hs
    | exact escapeMoves_subset fuel board you s hs
    | (rcases List.mem_append.mp hs with hh | hh <;>
        first
        | exact absurd hh (List.not_mem_nil s)
        | exact dirsToMoves_subset _ s hh
        | exact escapeMoves_subset fuel board you s hh
        | exact getRandMoves_subset _ _ _ _ _ _ s hh
        | (rw [List.mem_singleton] at hh
           subst hh
           exact findDir_fst_mem (by assumption)))
    | (rw [if_pos (by simp : ([] : List String).length ≤ 0)] at hs
       split at hs
       · split at hs
         · rcases List.mem_append.mp hs with hh | hh
           · exact absurd hh (List.not_mem_nil s)
           · rw [List.mem_singleton] at hh
             subst hh
             exact findDir_fst_mem (by assumption)
         · exact absurd hs (List.not_mem_nil s)
       · rcases List.mem_append.mp hs with hh | hh
         · exact absurd hh (List.not_mem_nil s)
         · exact getRandMoves_subset _ _ _ _ _ _ s hh)

unseal List.merge List.mergeSort in
/-- Claim C1: for every snapshot and every search fuel, `get_move` returns one
of the four cardinal directions; and on a board with no legal move at any tier
(a lone snake filling a 1x1 board) it returns the fixed default `"up"`. -/
theorem c1_get_move_total :
    (∀ (fuel : Nat) (game : Game) (turn : Nat) (board : Board) (you : Battlesnake),
      getMoveF fuel game turn board you ∈ ["up", "right", "left", "down"]) ∧
    getMove gameStd 0 boardTrap snakeTrap = "up" :=
  ⟨getMoveF_mem_dirs, by decide⟩

theorem coordAdd_inWrap (a b : Coord) : InWrap (coordAdd a b) := by
  unfold InWrap coordAdd
  have h1 := wrapI16_range (a.x + b.x)
  have h2 := wrapI16_range (a.y + b.y)
  exact ⟨h1.1, h1.2, h2.1, h2.2⟩

theorem coordSub_inWrap (a b : Coord) : InWrap (coordSub a b) := by
  unfold InWrap coordSub
  have h1 := wrapI16_range (a.x - b.x)
  have h2 := wrapI16_range (a.y - b.y)
  exact ⟨h1.1, h1.2, h2.1, h2.2⟩
theorem inWrap_length_le (v : List Coord) (hnd : v.Nodup)
    (hP : ∀ x ∈ v, InWrap x) : v.length ≤ NWRAP := by
  refine nodup_length_le_of_encode
    (fun c => (c.x + 32768).toNat * 65536 + (c.y + 32768).toNat) ?_ ?_ v hnd hP
  · intro c hc
    obtain ⟨h1, h2, h3, h4⟩ := hc
    simp only [NWRAP]
    omega
  · intro c d hc hd hcd
    obtain ⟨h1, h2, h3, h4⟩ := hc
    obtain ⟨g1, g2, g3, g4⟩ := hd
    have hcd2 : (c.x + 32768).toNat * 65536 + (c.y + 32768).toNat =
        (d.x + 32768).toNat * 65536 + (d.y + 32768).toNat := hcd
    rw [coord_eq_iff]
    omega

theorem mem_sortByCm {α : Type} {cmp : α → α → Ordering} {l : List α} {x : α}
    (hx : x ∈ sortByCm cmp l) : x ∈ l :=
  (List.mergeSort_perm l _).subset hx
theorem mem_getAdjTiles_inWrap {board : Board} {you : Battlesnake}
    {a : Option Bool} {p : Option (List Coord)} {tile t : Coord}
    (h : t ∈ getAdjTiles tile board you a p) : InWrap t := by
  simp only [getAdjTiles, List.mem_filter, List.mem_map] at h
  obtain ⟨⟨d, _, hd⟩, _⟩ := h
  subst hd
  exact coordAdd_inWrap _ _

theorem mem_favourableDivergentCoords_fst {t1 t2 : Coord} {board : Board}
    {you : Battlesnake} {ex : List Coord} {dt : Nat} {thr : ℚ}
    {a1 a2 a3 : Option Bool} {p : Coord × ℚ}
    (h : p ∈ favourableDivergentCoords t1 t2 board you ex dt thr a1 a2 a3) :
    p.1 = t1 ∨ p.1 = t2 := by
  simp only [favourableDivergentCoords] at h
  have h2 := mem_sortByCm h
  simp only [List.mem_filter, List.map_cons, List.map_nil, List.mem_cons,
    List.not_mem_nil, or_false] at h2
  rcases h2.1 with rfl | rfl
  · exact Or.inl rfl
  · exact Or.inr rfl

theorem mem_getAdjTilesConnected_inWrap {tile : Coord} {board : Board}
    {you : Battlesnake} {thr : ℚ} {dt : Nat} {a1 a2 a3 : Option Bool}
    {pl : Option (List Coord)} {t : Coord}
    (h : t ∈ getAdjTilesConnected tile board you thr dt a1 a2 a3 pl) : InWrap t := by
  simp only [getAdjTilesConnected] at h
  split at h
  · rename_i m1 m2 heq
    split at h
    · simp only [List.mem_map] at h
      obtain ⟨mv, hmv, rfl⟩ := h
      rcases mem_favourableDivergentCoords_fst hmv with h1 | h1 <;> rw [h1]
      · have : m1 ∈ sortByCm (fun a b => compareMoves a b board you (pl.getD [])
            a3 a1 a2) ((getAdjTiles tile board you a3 (some (pl.getD []))).filter
            fun item => !(pl.getD []).contains item) := by
          rw [heq]
          exact List.mem_cons_self _ _
        exact mem_getAdjTiles_inWrap (List.mem_filter.mp (mem_sortByCm this)).1
      · have : m2 ∈ sortByCm (fun a b => compareMoves a b board you (pl.getD [])
            a3 a1 a2) ((getAdjTiles tile board you a3 (some (pl.getD []))).filter
            fun item => !(pl.getD []).contains item) := by
          rw [heq]
          exact List.mem_cons_of_mem _ (List.mem_cons_self _ _)
        exact mem_getAdjTiles_inWrap (List.mem_filter.mp (mem_sortByCm this)).1
    · rw [heq] at h
      rcases List.mem_cons.mp h with rfl | h2
      · exact mem_getAdjTiles_inWrap (List.mem_filter.mp (mem_sortByCm (heq ▸
          (List.mem_cons_self _ _)))).1
      · rcases List.mem_cons.mp h2 with rfl | h3
        · exact mem_getAdjTiles_inWrap (List.mem_filter.mp (mem_sortByCm (heq ▸
            (List.mem_cons_of_mem _ (List.mem_cons_self _ _))))).1
        · exact absurd h3 (List.not_mem_nil t)
  · rename_i m1 m2 m3 heq
    split at h
    · rename_i s1 s2 hseq
      split at h
      · exact mem_getAdjTiles_inWrap (List.mem_filter.mp (mem_sortByCm h)).1
      · simp only [List.mem_map] at h
        obtain ⟨mv, hmv, rfl⟩ := h
        have h2 := mem_sortByCm hmv
        rcases List.mem_append.mp h2 with h3 | h3
        · rcases mem_favourableDivergentCoords_fst h3 with h4 | h4 <;> rw [h4]
          · exact coordAdd_inWrap _ _
          · exact coordAdd_inWrap _ _
        · have h4 := List.mem_filter.mp h3
          rcases mem_favourableDivergentCoords_fst h4.1 with h5 | h5 <;> rw [h5]
          · exact coordAdd_inWrap _ _
          · exact coordAdd_inWrap _ _
    · exact absurd h (List.not_mem_nil t)
  · exact mem_getAdjTiles_inWrap (List.mem_filter.mp (mem_sortByCm h)).1

theorem ibAdj_eq (board : Board) (you : Battlesnake) (visited : List Coord)
    (cur : Coord) :
    ((getAdjTiles cur board you none none).filter fun item => !visited.contains item)
      = ncAdj board you [] visited cur := by
  simp only [ncAdj]
  refine List.filter_congr ?_
  intro a _
  simp

theorem insideBoxGo_isSome (you : Battlesnake) (board : Board) (nf : Nat)
    (thr : ℚ) :
    ∀ fuel (f v : List Coord), v.Nodup → (∀ x ∈ v, InWrap x) →
      f.length + 2 * (NWRAP - v.length) + 1 ≤ fuel →
      (insideBoxGo you board nf thr fuel f v).isSome := by
  intro fuel
  induction fuel with
  | zero => intro f v _ _ hfuel; omega
  | succ m ih =>
    intro f v hnd hvS hfuel
    match f with
    | [] => simp [insideBoxGo]
    | cur :: rest =>
      simp only [insideBoxGo, ibAdj_eq]
      split
      · simp
      · have hnd' : (v ++ ncAdj board you [] v cur).Nodup := by
          refine List.Nodup.append hnd (ncAdj_nodup board you [] v cur) ?_
          rw [List.disjoint_left]
          intro a ha hadj
          exact ncAdj_disjoint board you [] v cur a hadj ha
        have hS' : ∀ x ∈ v ++ ncAdj board you [] v cur, InWrap x := by
          intro x hx
          rcases List.mem_append.mp hx with hx | hx
          · exact hvS x hx
          · have := (mem_ncAdj.mp hx).1
            simp only [goodFrom, List.mem_filter] at this
            exact mem_getAdjTiles_inWrap this.1
        have hlen : (v ++ ncAdj board you [] v cur).length ≤ NWRAP :=
          inWrap_length_le _ hnd' hS'
        refine ih (rest ++ ncAdj board you [] v cur) _ hnd' hS' ?_
        simp only [List.length_append, List.length_cons] at hfuel hlen ⊢
        omega

theorem mapLookup_isNone_iff {α : Type} {m : List (Coord × α)} {k : Coord} :
    (mapLookup m k).isNone = true ↔ k ∉ m.map Prod.fst := by
  rw [Option.isNone_iff_eq_none]
  constructor
  · intro h hk
    simp only [List.mem_map] at hk
    obtain ⟨kv, hkv, hk⟩ := hk
    simp only [mapLookup, Option.map_eq_none', List.find?_eq_none] at h
    exact absurd (by simp [hk] : (kv.1 == k) = true) (h kv hkv)
  · intro h
    simp only [mapLookup, Option.map_eq_none', List.find?_eq_none]
    intro kv hkv hk
    rw [beq_iff_eq] at hk
    exact h (List.mem_map.mpr ⟨kv, hkv, hk⟩)

theorem mapInsert_fst_of_mem {α : Type} {m : List (Coord × α)} {k : Coord}
    (v : α) (h : k ∈ m.map Prod.fst) :
    (mapInsert m k v).map Prod.fst = m.map Prod.fst := by
  have hany : m.any (fun kv => kv.1 == k) = true := by
    simp only [List.any_eq_true, beq_iff_eq]
    simpa using h
  simp only [mapInsert, hany, if_true, List.map_map]
  refine List.map_congr_left ?_
  intro kv _
  simp only [Function.comp_apply]
  split
  · rename_i hb
    simp only [beq_iff_eq] at hb
    exact hb.symm
  · rfl

theorem mapInsert_fst_of_not_mem {α : Type} {m : List (Coord × α)} {k : Coord}
    (v : α) (h : k ∉ m.map Prod.fst) :
    (mapInsert m k v).map Prod.fst = k :: m.map Prod.fst := by
  have hany : m.any (fun kv => kv.1 == k) = false := by
    simp only [List.any_eq_false, beq_iff_eq]
    intro kv hkv heq
    exact h (List.mem_map.mpr ⟨kv, hkv, heq⟩)
  simp [mapInsert, hany]

theorem nodup_subset_length_le {α : Type} [DecidableEq α] {l l' : List α}
    (hnd : l.Nodup) (hsub : ∀ x ∈ l, x ∈ l') : l.length ≤ l'.length := by
  calc l.length = l.toFinset.card := (List.toFinset_card_of_nodup hnd).symm
    _ ≤ l'.toFinset.card := Finset.card_le_card (fun x hx => by
        rw [List.mem_toFinset] at hx ⊢
        exact hsub x hx)
    _ ≤ l'.length := l'.toFinset_card_le

theorem dfsStep_keep
    (F : Coord → List (Coord × Coord) → Option (Option Coord × List (Coord × Coord)))
    (fromTile g : Coord) (vis : List (Coord × Coord)) :
    ∀ ts : List Coord,
      List.foldl (dfsStep F fromTile) (some (some g, vis)) ts = some (some g, vis) := by
  intro ts
  induction ts with
  | nil => rfl
  | cons t ts ih =>
    simp only [List.foldl_cons, dfsStep]
    exact ih

theorem dfsGo_post (goal : Coord) (board : Board) (you : Battlesnake) (ct : ℚ)
    (dt : Nat) :
    ∀ fuel (fromTile : Coord) (visited : List (Coord × Coord)),
      (visited.map Prod.fst).Nodup → (∀ k ∈ visited.map Prod.fst, InWrap k) →
      NWRAP + 1 - (visited.map Prod.fst).length ≤ fuel →
      DfsPost visited (dfsGo goal board you ct dt fuel fromTile visited) := by
  intro fuel
  induction fuel with
  | zero =>
    intro fromTile visited hnd hIW hfuel
    have hlen := inWrap_length_le _ hnd hIW
    exact absurd hfuel (by omega)
  | succ m ih =>
    intro fromTile visited hnd hIW hfuel
    simp only [dfsGo]
    split
    · simp [DfsPost]
    · have hmain : ∀ (ts : List Coord),
          (∀ t ∈ ts, InWrap t ∧ t ∉ visited.map Prod.fst) →
          ∀ (vis : List (Coord × Coord)), (vis.map Prod.fst).Nodup →
          (∀ k ∈ vis.map Prod.fst, InWrap k) →
          (∀ k ∈ visited.map Prod.fst, k ∈ vis.map Prod.fst) →
          DfsPost visited (List.foldl
            (dfsStep (dfsGo goal board you ct dt m) fromTile) (some (none, vis)) ts) := by
        intro ts
        induction ts with
        | nil =>
          intro _ vis hnd' hIW' hsup
          simp only [List.foldl_nil, DfsPost]
          exact ⟨hnd', hIW', hsup⟩
        | cons t ts iht =>
          intro hts vis hnd' hIW' hsup
          obtain ⟨htW, htnv⟩ := hts t (List.mem_cons_self _ _)
          have hsub1 : (visited.map Prod.fst).length + 1 ≤
              ((mapInsert vis t fromTile).map Prod.fst).length := by
            by_cases hmem : t ∈ vis.map Prod.fst
            · rw [mapInsert_fst_of_mem _ hmem]
              have h := nodup_subset_length_le (List.nodup_cons.mpr ⟨htnv, hnd⟩)
                (fun k hk => by
                  rcases List.mem_cons.mp hk with rfl | hk
                  · exact hmem
                  · exact hsup k hk)
              simp only [List.length_cons] at h
              exact h
            · rw [mapInsert_fst_of_not_mem _ hmem]
              have h := nodup_subset_length_le hnd hsup
              simp only [List.length_cons]
              omega
          have hndc : ((mapInsert vis t fromTile).map Prod.fst).Nodup := by
            by_cases hmem : t ∈ vis.map Prod.fst
            · rw [mapInsert_fst_of_mem _ hmem]; exact hnd'
            · rw [mapInsert_fst_of_not_mem _ hmem]
              exact List.nodup_cons.mpr ⟨hmem, hnd'⟩
          have hIWc : ∀ k ∈ (mapInsert vis t fromTile).map Prod.fst, InWrap k := by
            by_cases hmem : t ∈ vis.map Prod.fst
            · rw [mapInsert_fst_of_mem _ hmem]; exact hIW'
            · rw [mapInsert_fst_of_not_mem _ hmem]
              intro k hk
              rcases List.mem_cons.mp hk with rfl | hk
              · exact htW
              · exact hIW' k hk
          have hsupc : ∀ k ∈ vis.map Prod.fst,
              k ∈ (mapInsert vis t fromTile).map Prod.fst := by
            by_cases hmem : t ∈ vis.map Prod.fst
            · rw [mapInsert_fst_of_mem _ hmem]; exact fun k hk => hk
            · rw [mapInsert_fst_of_not_mem _ hmem]
              exact fun k hk => List.mem_cons_of_mem _ hk
          have hchild := ih t (mapInsert vis t fromTile) hndc hIWc (by omega)
          simp only [List.foldl_cons]
          cases hres : dfsGo goal board you ct dt m t (mapInsert vis t fromTile) with
          | none =>
            rw [hres] at hchild
            simp only [DfsPost] at hchild
          | some p =>
            obtain ⟨og, vis'⟩ := p
            rw [hres] at hchild
            cases og with
            | some g =>
              rw [show dfsStep (dfsGo goal board you ct dt m) fromTile
                    (some (none, vis)) t = some (some g, vis') from by
                  simp only [dfsStep]
                  exact hres]
              rw [dfsStep_keep]
              simp [DfsPost]
            | none =>
              rw [show dfsStep (dfsGo goal board you ct dt m) fromTile
                    (some (none, vis)) t = some (none, vis') from by
                  simp only [dfsStep]
                  exact hres]
              simp only [DfsPost] at hchild
              obtain ⟨h1, h2, h3⟩ := hchild
              exact iht (fun t' ht' => hts t' (List.mem_cons_of_mem _ ht'))
                vis' h1 h2 (fun k hk => h3 k (hsupc k (hsup k hk)))
      refine hmain _ ?_ visited hnd hIW (fun k hk => hk)
      intro t ht
      have ht1 := List.mem_filter.mp (mem_sortByCm ht)
      exact ⟨mem_getAdjTilesConnected_inWrap ht1.1, mapLookup_isNone_iff.mp ht1.2⟩

theorem pqPick_mem : ∀ (rest : List (Coord × Nat × Int)) (e : Coord × Nat × Int),
    rest.foldl (fun acc x => if prioPopsBefore acc.2 x.2 then acc else x) e ∈ e :: rest := by
  intro rest
  induction rest with
  | nil => intro e; exact List.mem_singleton.mpr rfl
  | cons y ys ih =>
    intro e
    simp only [List.foldl_cons]
    rcases List.mem_cons.mp (ih (if prioPopsBefore e.2 y.2 then e else y)) with h1 | h1
    · rw [h1]
      split
      · exact List.mem_cons_self _ _
      · exact List.mem_cons_of_mem _ (List.mem_cons_self _ _)
    · exact List.mem_cons_of_mem _ (List.mem_cons_of_mem _ h1)

theorem pqPopMin_length {q : List (Coord × Nat × Int)} {c : Coord}
    {rest : List (Coord × Nat × Int)} (h : pqPopMin q = some (c, rest)) :
    rest.length + 1 = q.length := by
  match q with
  | [] => simp [pqPopMin] at h
  | e :: t =>
    simp only [pqPopMin, Option.some.injEq, Prod.mk.injEq] at h
    obtain ⟨-, h2⟩ := h
    subst h2
    rw [List.length_erase_of_mem (pqPick_mem t e)]
    simp only [List.length_cons]
    omega

theorem pqPush_length (q : List (Coord × Nat × Int)) (c : Coord) (p : Nat × Int) :
    (pqPush q c p).length =
      if q.any fun e => e.1 == c then q.length else q.length + 1 := by
  simp only [pqPush]
  split
  · simp
  · simp

theorem mapLookup_eq_none_iff {α : Type} {m : List (Coord × α)} {k : Coord} :
    mapLookup m k = none ↔ k ∉ m.map Prod.fst := by
  rw [← Option.isNone_iff_eq_none]
  exact ⟨fun h => mapLookup_isNone_iff.mp h, fun h => mapLookup_isNone_iff.mpr h⟩

theorem mapLookup_eq_some_mem {α : Type} {m : List (Coord × α)} {k : Coord} {v : α}
    (h : mapLookup m k = some v) : (k, v) ∈ m := by
  simp only [mapLookup, Option.map_eq_some'] at h
  obtain ⟨kv, hfind, hv⟩ := h
  have hmem := List.mem_of_find?_eq_some hfind
  have hpred := List.find?_some hfind
  rw [beq_iff_eq] at hpred
  obtain ⟨k1, v1⟩ := kv
  simp only at hpred hv
  subst hpred
  subst hv
  exact hmem

theorem mapInsert_snd_sum_of_not_mem {m : List (Coord × Nat)} {k : Coord}
    (v : Nat) (h : k ∉ m.map Prod.fst) :
    ((mapInsert m k v).map Prod.snd).sum = v + (m.map Prod.snd).sum := by
  have hany : m.any (fun kv => kv.1 == k) = false := by
    simp only [List.any_eq_false, beq_iff_eq]
    intro kv hkv heq
    exact h (List.mem_map.mpr ⟨kv, hkv, heq⟩)
  simp [mapInsert, hany]

theorem replace_snd_sum {m : List (Coord × Nat)} {k : Coord} {p : Nat} (v : Nat)
    (hnd : (m.map Prod.fst).Nodup) (hmem : (k, p) ∈ m) :
    ((m.map fun kv => if kv.1 == k then (k, v) else kv).map Prod.snd).sum + p
      = (m.map Prod.snd).sum + v := by
  induction m with
  | nil => simp at hmem
  | cons kv m ihm =>
    rcases List.mem_cons.mp hmem with heq | hmem2
    · subst heq
      simp only [List.map_cons, List.sum_cons]
      rw [if_pos (by simp)]
      have hknm : k ∉ m.map Prod.fst := (List.nodup_cons.mp hnd).1
      have htail : (m.map fun kv => if kv.1 == k then (k, v) else kv) = m := by
        calc (m.map fun kv => if kv.1 == k then (k, v) else kv)
            = m.map id := List.map_congr_left (fun kv' hkv' => by
              rw [if_neg]
              · rfl
              · simp only [beq_iff_eq]
                intro hk
                exact hknm (List.mem_map.mpr ⟨kv', hkv', hk⟩))
          _ = m := List.map_id m
      rw [htail]
      simp only
      omega
    · have hk : kv.1 ≠ k := by
        have hkm : k ∈ m.map Prod.fst := List.mem_map.mpr ⟨(k, p), hmem2, rfl⟩
        intro h
        exact (List.nodup_cons.mp hnd).1 (h ▸ hkm)
      simp only [List.map_cons, List.sum_cons]
      rw [if_neg (by simpa using hk)]
      have := ihm (List.nodup_cons.mp hnd).2 hmem2
      omega

theorem aStar_insert_cost_le {m : List (Coord × Nat)} {k : Coord} {p : Nat} {v : Nat}
    (hnd : (m.map Prod.fst).Nodup) (hlk : mapLookup m k = some p) (himp : v < p) :
    ((mapInsert m k v).map Prod.snd).sum + 1 ≤ (m.map Prod.snd).sum := by
  have hmem := mapLookup_eq_some_mem hlk
  have hkm : k ∈ m.map Prod.fst := List.mem_map.mpr ⟨(k, p), hmem, rfl⟩
  have hany : m.any (fun kv => kv.1 == k) = true := by
    simp only [List.any_eq_true, beq_iff_eq]
    simpa using hkm
  have hsum := replace_snd_sum v hnd hmem
  simp only [mapInsert, hany, if_true]
  omega

theorem mem_mapInsert_snd {α : Type} {m : List (Coord × α)} {k : Coord} {v w : α}
    (h : w ∈ (mapInsert m k v).map Prod.snd) : w = v ∨ w ∈ m.map Prod.snd := by
  simp only [mapInsert] at h
  split at h
  · simp only [List.map_map, List.mem_map, Function.comp_apply] at h
    obtain ⟨kv, hkv, hw⟩ := h
    split at hw
    · exact Or.inl hw.symm
    · exact Or.inr (List.mem_map.mpr ⟨kv, hkv, hw⟩)
  · simp only [List.map_cons, List.mem_cons] at h
    rcases h with h | h
    · exact Or.inl h
    · exact Or.inr h

theorem aStarRelax_measure (board : Board) (cur : Coord) (cc : Nat) :
    ∀ (tiles : List Coord) (st : AState), AInv st → (∀ t ∈ tiles, InWrap t) →
      AInv (aStarRelax board cur cc tiles st) ∧
      aMeasure (aStarRelax board cur cc tiles st) ≤ aMeasure st := by
  intro tiles
  induction tiles with
  | nil =>
    intro st hinv _
    simp only [aStarRelax]
    exact ⟨hinv, le_rfl⟩
  | cons t ts iht =>
    intro st hinv htW
    obtain ⟨hnd, hIW, hvals⟩ := hinv
    have htW0 : InWrap t := htW t (List.mem_cons_self _ _)
    have htlW : ∀ u ∈ ts, InWrap u := fun u hu => htW u (List.mem_cons_of_mem _ hu)
    have hrec : ∀ st2 : AState, AInv st2 → aMeasure st2 ≤ aMeasure st →
        AInv (aStarRelax board cur cc ts st2) ∧
        aMeasure (aStarRelax board cur cc ts st2) ≤ aMeasure st := by
      intro st2 h1 h2
      obtain ⟨g1, g2⟩ := iht st2 h1 htlW
      exact ⟨g1, le_trans g2 h2⟩
    have hIWc : ∀ k ∈ t :: st.cost.map Prod.fst, InWrap k := by
      intro k hk
      rcases List.mem_cons.mp hk with rfl | hk
      · exact htW0
      · exact hIW k hk
    simp only [aStarRelax]
    split
    all_goals
      cases hprev : mapLookup st.cost t with
      | none =>
        have hmemk : t ∉ st.cost.map Prod.fst := mapLookup_eq_none_iff.mp hprev
        have hndc : (t :: st.cost.map Prod.fst).Nodup := List.nodup_cons.mpr ⟨hmemk, hnd⟩
        have hkle : (t :: st.cost.map Prod.fst).length ≤ NWRAP :=
          inWrap_length_le _ hndc hIWc
        rw [if_pos rfl]
        refine hrec _ ⟨?_, ?_, ?_⟩ ?_
        · rw [mapInsert_fst_of_not_mem _ hmemk]
          exact hndc
        · rw [mapInsert_fst_of_not_mem _ hmemk]
          exact hIWc
        · intro w hw
          rcases mem_mapInsert_snd hw with rfl | hw
          · omega
          · exact hvals w hw
        · simp only [aMeasure]
          rw [pqPush_length, mapInsert_snd_sum_of_not_mem _ hmemk,
            mapInsert_fst_of_not_mem _ hmemk]
          simp only [List.length_cons] at hkle ⊢
          split <;> omega
      | some p =>
        split
        · rename_i hlt0
          have hlt := of_decide_eq_true hlt0
          have hmem := mapLookup_eq_some_mem hprev
          have hmemk : t ∈ st.cost.map Prod.fst := List.mem_map.mpr ⟨(t, p), hmem, rfl⟩
          refine hrec _ ⟨?_, ?_, ?_⟩ ?_
          · rw [mapInsert_fst_of_mem _ hmemk]
            exact hnd
          · rw [mapInsert_fst_of_mem _ hmemk]
            exact hIW
          · intro w hw
            rcases mem_mapInsert_snd hw with rfl | hw
            · omega
            · exact hvals w hw
          · have hsum := aStar_insert_cost_le hnd hprev hlt
            simp only [aMeasure]
            rw [pqPush_length, mapInsert_fst_of_mem _ hmemk]
            split <;> omega
        · exact hrec st ⟨hnd, hIW, hvals⟩ le_rfl

theorem aStarGo_isSome (board : Board) (you : Battlesnake) (ct : ℚ) (dt : Nat) :
    ∀ fuel (st : AState), AInv st → aMeasure st + 1 ≤ fuel →
      (aStarGo board you ct dt fuel st).isSome := by
  intro fuel
  induction fuel with
  | zero => intro st _ hf; exact absurd hf (by omega)
  | succ m ih =>
    intro st hinv hf
    simp only [aStarGo]
    split
    · simp
    · rename_i cur rest hpop
      split
      · simp
      · have hlen := pqPopMin_length hpop
        obtain ⟨hA, hM⟩ := aStarRelax_measure board cur
          ((mapLookup st.cost cur).getD 0)
          (getAdjTilesConnected cur board you ct dt none none none
            (some ((backtrackF cur st.visited).drop
              ((backtrackF cur st.visited).length - you.length))))
          ⟨rest, st.visited, st.cost⟩
          hinv (fun u hu => mem_getAdjTilesConnected_inWrap hu)
        refine ih _ hA ?_
        have hm1 : aMeasure ⟨rest, st.visited, st.cost⟩ + 1 = aMeasure st := by
          simp only [aMeasure]
          omega
        omega

/-- Claim C9 counterexample: on the 3x1 board with 2 free tiles, the
`num_connected_tiles` flood fill from `(0,0)` makes 4 recursive calls - it
runs out at fuel equal to the free-tile count (2) and even at fuel
`width * height` (3), succeeding only from fuel 4 on - so its recursion
depth is bounded by neither the free-tile count nor the board area. -/
theorem c9_counterexample :
    numFreeTiles boardConn = 2 ∧
    (boardConn.width : Nat) * (boardConn.height : Nat) = 3 ∧
    ncGo boardConn snakeConn [] 2 [⟨0, 0⟩] [] = none ∧
    ncGo boardConn snakeConn [] 3 [⟨0, 0⟩] [] = none ∧
    (ncGo boardConn snakeConn [] 4 [⟨0, 0⟩] []).isSome := by
  decide

/-- Claim C9 (amended): every search in the core terminates, but with call
counts bounded by quantities larger than the free-tile count: the
`num_connected_tiles` flood fill from an on-board start tile finishes within
`width * height + 2` recursive calls; the `inside_box_logic` flood fill
finishes within `2 * 65536^2 + 2` iterations; `depth_first_search_logic`
finishes at recursion depth `65536^2 + 1`; and `a_star_logic` finishes within
`65536 * 65536^2 + 2` iterations (each push strictly decreases a `u16` cost
entry over the at most `65536^2` representable `i16` coordinate pairs). -/
theorem c9_amended_termination :
    (∀ (board : Board) (you : Battlesnake) (ex : List Coord) (tile : Coord),
      board.width ≤ 255 → board.height ≤ 255 → OnBoard board tile →
      (ncGo board you ex (board.width * board.height + 2) [tile] []).isSome) ∧
    (∀ (you : Battlesnake) (board : Board) (nf : Nat) (thr : ℚ),
      (insideBoxGo you board nf thr (2 * NWRAP + 2) [you.head] []).isSome) ∧
    (∀ (goal : Coord) (board : Board) (you : Battlesnake) (ct : ℚ) (dt : Nat),
      (dfsGo goal board you ct dt (NWRAP + 1) you.head []).isSome) ∧
    (∀ (board : Board) (you : Battlesnake) (ct : ℚ) (dt : Nat),
      (aStarGo board you ct dt ASTAR_FUEL (aStarInit you)).isSome) := by
  refine ⟨fun board you ex tile hw hh ht => ncGo_total_onBoard board you ex tile hw hh ht,
    fun you board nf thr => ?_, fun goal board you ct dt => ?_,
    fun board you ct dt => ?_⟩
  · refine insideBoxGo_isSome you board nf thr (2 * NWRAP + 2) [you.head] []
      List.nodup_nil (fun x hx => absurd hx (List.not_mem_nil x)) ?_
    simp only [List.length_singleton, List.length_nil, Nat.sub_zero]
    omega
  · have h := dfsGo_post goal board you ct dt (NWRAP + 1) you.head []
      (by simp) (by simp) (by simp)
    cases hres : dfsGo goal board you ct dt (NWRAP + 1) you.head [] with
    | none =>
      rw [hres] at h
      simp only [DfsPost] at h
    | some p =>
      rfl
  · refine aStarGo_isSome board you ct dt ASTAR_FUEL (aStarInit you) ?_ ?_
    · simp [AInv, aStarInit]
    · simp only [aMeasure, aStarInit, ASTAR_FUEL, NWRAP, List.length_singleton,
        List.map_nil, List.sum_nil, List.length_nil, Nat.sub_zero]
      omega

theorem c9_amended_termination_witness :
    (ncGo boardConn snakeConn []
      (boardConn.width * boardConn.height + 2) [⟨0, 0⟩] []).isSome :=
  c9_amended_termination.1 boardConn snakeConn [] ⟨0, 0⟩ (by decide) (by decide)
    ⟨by decide, by decide, by decide, by decide⟩
